import Mathlib

/-! A verification development for the `rush` shell (`CustomShellProject.c`)
and the circular buffer of `Multithreaded.c`.

The shell reads one line per prompt cycle, splits it on `&` into a batch of
sub-commands, tokenizes each sub-command on spaces and tabs, and either runs a
built-in (`exit`, `cd`, `path`), runs one external command, or fans a batch out
as concurrent child processes.

The embedding is shallow.  C strings are lists of characters (the bytes before
the terminating NUL); a line is the list of bytes that `getline` stored, and
the C string in it ends at its first NUL.  Fixed-size C arrays are lists of the array's length;
every array write goes through `store`, which faults when the index is outside
the array.  Loops driven by `strtok` carry fuel; running out of fuel is a fault
as well, so a result `Except.ok _` says that the loop returned and that every
write was in bounds.  The operating system (the executability test, process
creation, `chdir`) is an oracle, and the calls made to it are recorded as a
trace of events.
-/

namespace Rush

/-! ## Strings, arrays and faults -/

/-- A C string: the characters before the terminating NUL, one entry per `char`. -/
abbrev CStr := List Char

/-- The value of `MAX_INPUT_SIZE`. -/
def MAX_INPUT_SIZE : Nat := 255

/-- The value of `MAX_ARGS`. -/
def MAX_ARGS : Nat := 64

/-- Ways in which the model of a C function can fail to return a value. -/
inductive Fault where
  | out_of_fuel
  | out_of_bounds
  | null_pointer
  deriving DecidableEq, Repr

deriving instance DecidableEq for Except

/-- An array write `a[i] = v`: a fault when `i` is not an index of `a`. -/
def store {α : Type} (a : List α) (i : Nat) (v : α) : Except Fault (List α) :=
  if i < a.length then .ok (a.set i v) else .error .out_of_bounds

/-- An array read `a[i]`: a fault when `i` is not an index of `a`. -/
def load {α : Type} (a : List α) (i : Nat) : Except Fault α :=
  match a.get? i with
  | some v => .ok v
  | none => .error .out_of_bounds

/-- The argument array `char *args[MAX_ARGS]`: `none` is the NULL pointer. -/
abbrev Args := List (Option CStr)

/-! ## `strtok`, `isspace` -/

/-- Membership of a character in a delimiter string. -/
def isDelim (delim : CStr) (c : Char) : Bool := delim.contains c

/-- One call of `strtok`/`strtok_r` with the scan position `cur`: skip leading
delimiters; when nothing is left return NULL; otherwise the token runs up to
the next delimiter, which is overwritten by NUL, and the scan position moves
just past it.  The result is the token (or NULL) and the new scan position. -/
def strtok (delim : CStr) (cur : CStr) : Option CStr × CStr :=
  match cur.dropWhile (isDelim delim) with
  | [] => (none, [])
  | c :: cs =>
    (some ((c :: cs).takeWhile (fun x => !isDelim delim x)),
      ((c :: cs).dropWhile (fun x => !isDelim delim x)).drop 1)

/-- The delimiter string `" \t"` of the two tokenizers. -/
def WS : CStr := [' ', '\t']

/-- The delimiter string `"&"` of the parallel split. -/
def AMP : CStr := ['&']

/-- The redirection marker `">"`. -/
def MARKER : CStr := ['>']

/-- The function `isspace` in the C locale: space, `\t`, `\n`, `\v`, `\f`, `\r`. -/
def isspace (c : Char) : Bool :=
  c == ' ' || c == '\t' || c == '\n' || c == '\x0b' || c == '\x0c' || c == '\r'

/-- The tokens of a string: its maximal runs of characters that are not
delimiters, in order. -/
def tokens (delim : CStr) (s : CStr) : List CStr :=
  (s.splitOnP (isDelim delim)).filter (fun t => t ≠ [])

/-! ## `parse_command` -/

/-- What `parse_command` leaves behind: the returned `int`, the argument array
and `*output_file`. -/
structure ParseResult where
  ret : Int
  args : Args
  output_file : Option CStr
  deriving DecidableEq, Repr

/-- The two statements after the loop of `parse_command`:
`args[arg_count] = NULL; return arg_count;`. -/
def parse_exit (arg_count : Nat) (args : Args) (output_file : Option CStr) :
    Except Fault ParseResult :=
  match store args arg_count none with
  | .error e => .error e
  | .ok args => .ok ⟨(arg_count : Int), args, output_file⟩

/-- The `while` loop of `parse_command` and the statements after it.  `token`
is the C variable, `cur` the scan position kept by `strtok`. -/
def parse_loop : Nat → Option CStr → CStr → Nat → Bool → Args → Option CStr →
    Except Fault ParseResult
  | 0, _, _, _, _, _, _ => .error .out_of_fuel
  | fuel + 1, token, cur, arg_count, redirection_found, args, output_file =>
    match token with
    | none => parse_exit arg_count args output_file
    | some tok =>
      if arg_count < MAX_ARGS - 1 then
        if tok = MARKER then
          if redirection_found || arg_count == 0 then
            .ok ⟨-1, args, output_file⟩
          else
            match strtok WS cur with
            | (none, _) => .ok ⟨-1, args, output_file⟩
            | (some file, cur1) =>
              parse_loop fuel (strtok WS cur1).1 (strtok WS cur1).2 arg_count true args
                (some file)
        else if redirection_found then
          .ok ⟨-1, args, output_file⟩
        else
          match store args arg_count (some tok) with
          | .error e => .error e
          | .ok args1 =>
            parse_loop fuel (strtok WS cur).1 (strtok WS cur).2 (arg_count + 1)
              redirection_found args1 output_file
      else parse_exit arg_count args output_file

/-- The function `parse_command(input, args, output_file)`; `args` is the
caller's array as it is on entry. -/
def parse_command (input : CStr) (args : Args) : Except Fault ParseResult :=
  parse_loop (input.length + 1) (strtok WS input).1 (strtok WS input).2 0 false args none

/-- The loop of `parse_command` read over the list of tokens that the
successive `strtok` calls return. -/
def parse_tokens : List CStr → Nat → Bool → Args → Option CStr → Except Fault ParseResult
  | [], arg_count, _, args, output_file => parse_exit arg_count args output_file
  | tok :: rest, arg_count, redirection_found, args, output_file =>
    if arg_count < MAX_ARGS - 1 then
      if tok = MARKER then
        if redirection_found || arg_count == 0 then
          .ok ⟨-1, args, output_file⟩
        else
          match rest with
          | [] => .ok ⟨-1, args, output_file⟩
          | file :: rest1 => parse_tokens rest1 arg_count true args (some file)
      else if redirection_found then
        .ok ⟨-1, args, output_file⟩
      else
        match store args arg_count (some tok) with
        | .error e => .error e
        | .ok args1 => parse_tokens rest (arg_count + 1) redirection_found args1 output_file
    else parse_exit arg_count args output_file

/-- The tokens that spell an optional redirection: nothing, or the marker
followed by the file name. -/
def redirection : Option CStr → List CStr
  | none => []
  | some file => [MARKER, file]

/-! ## `trim`, `is_empty_or_whitespace` and the parallel split of `main` -/

/-- The loop `while (end > str && isspace(*end)) end--;` of `trim`, on the
index of `end` in `str`; the result is the index at which it stops. -/
def trim_end (str : CStr) : Nat → Nat
  | 0 => 0
  | e + 1 => if isspace (str.getD (e + 1) '\x00') then trim_end str e else e + 1

/-- The function `trim` on a non-NULL string: skip leading whitespace; when
the string is then empty return it; otherwise cut it after its last
non-whitespace character. -/
def trim (str : CStr) : CStr :=
  match str.dropWhile isspace with
  | [] => []
  | c :: cs => (c :: cs).take (trim_end (c :: cs) ((c :: cs).length - 1) + 1)

/-- The function `is_empty_or_whitespace`. -/
def is_empty_or_whitespace : CStr → Bool
  | [] => true
  | c :: cs => if !isspace c then false else is_empty_or_whitespace cs

/-- The split loop of `main`: `token` is the C variable, `saveptr` the scan
position of `strtok_r`; the result is the array `parallel_commands` and
`parallel_count`. -/
def split_loop : Nat → Option CStr → CStr → List CStr → Nat → Except Fault (List CStr × Nat)
  | 0, _, _, _, _ => .error .out_of_fuel
  | fuel + 1, token, saveptr, parallel_commands, parallel_count =>
    match token with
    | none => .ok (parallel_commands, parallel_count)
    | some tok =>
      if parallel_count < MAX_ARGS then
        if !is_empty_or_whitespace (trim tok) then
          match store parallel_commands parallel_count (trim tok) with
          | .error e => .error e
          | .ok parallel_commands1 =>
            split_loop fuel (strtok AMP saveptr).1 (strtok AMP saveptr).2 parallel_commands1
              (parallel_count + 1)
        else
          split_loop fuel (strtok AMP saveptr).1 (strtok AMP saveptr).2 parallel_commands
            parallel_count
      else .ok (parallel_commands, parallel_count)

/-- The lines of `main` from the `strtok_r` call to the end of the split
loop, on the trimmed input line. -/
def split_parallel (trimmed_input : CStr) (parallel_commands : List CStr) :
    Except Fault (List CStr × Nat) :=
  split_loop (trimmed_input.length + 1) (strtok AMP trimmed_input).1
    (strtok AMP trimmed_input).2 parallel_commands 0

/-- The C string that starts a buffer of bytes: the bytes before the first
NUL.  The string functions of C see nothing behind it. -/
def c_string (bytes : List Char) : CStr := bytes.takeWhile (fun c => c != '\x00')

/-- The line as `main` holds it before the split, from the `line_length` bytes
that `getline` stored: a newline in the last byte is replaced by NUL, and the
C string in the buffer is trimmed. -/
def read_line (raw : List Char) : CStr :=
  trim (c_string (if raw.getLast? = some '\n' then raw.dropLast else raw))

/-- The split loop of `main` read over the list of tokens that the successive
`strtok_r` calls return. -/
def split_tokens : List CStr → List CStr → Nat → Except Fault (List CStr × Nat)
  | [], parallel_commands, parallel_count => .ok (parallel_commands, parallel_count)
  | tok :: rest, parallel_commands, parallel_count =>
    if parallel_count < MAX_ARGS then
      if !is_empty_or_whitespace (trim tok) then
        match store parallel_commands parallel_count (trim tok) with
        | .error e => .error e
        | .ok parallel_commands1 => split_tokens rest parallel_commands1 (parallel_count + 1)
      else split_tokens rest parallel_commands parallel_count
    else .ok (parallel_commands, parallel_count)

/-! ## The operating system and the trace -/

/-- What `fork()` returns in the calling process: the pid of the child that
was created (the branch `pid > 0`) or a failure (the last branch).  The branch
`pid == 0` runs in the new process; it is the `Child` carried by the event. -/
inductive ForkResult where
  | created (pid : Int)
  | failed
  deriving DecidableEq, Repr

/-- The argument vector that a program started with `args` receives: the
entries of the array before its first NULL. -/
def argv : Args → List CStr
  | some a :: args => a :: argv args
  | _ => []

/-- The program of a child process, that is the branch `pid == 0`; `argv` is
the argument vector in the array `args` that the child passes on.
`exec`: the child of `execute_command`, which opens `output_file` as standard
output when it is not NULL and calls `execv(full_path, args)`.
`command`: the child of `execute_parallel_commands`, which calls
`execute_command(args[0], args, output_file)` and then `exit(0)`. -/
inductive Child where
  | exec (full_path : CStr) (argv : List CStr) (output_file : Option CStr)
  | command (command : CStr) (argv : List CStr) (output_file : Option CStr)
  deriving DecidableEq, Repr

/-- The observable actions of the shell process. -/
inductive Event where
  | prompt
  | error
  | access (full_path : CStr)
  | fork (child : Child) (result : ForkResult)
  | waitpid (pid : Int)
  | chdir (dir : CStr)
  deriving DecidableEq, Repr

/-- The answers of the operating system.  `access p` is whether
`access(p, X_OK) == 0`; `fork i` is the result of the process creation
attempted for member `i` of a batch (`fork 0` for a single command);
`chdir cwd dir` is the new working directory, or `none` when `chdir(dir)`
fails. -/
structure OS where
  access : CStr → Bool
  fork : Nat → ForkResult
  chdir : CStr → CStr → Option CStr

/-- The contents of the local arrays before they are written: `args i` of a
fresh `char *args[MAX_ARGS]`, `parallel_commands i` of a fresh
`char* parallel_commands[MAX_ARGS]`, `pids i` of a fresh `pid_t pids[n]`. -/
structure Uninit where
  args : Nat → Option CStr
  parallel_commands : Nat → CStr
  pids : Nat → Int

/-- A fresh array of `n` entries with the contents `f`. -/
def fresh {α : Type} (n : Nat) (f : Nat → α) : List α := (List.range n).map f

/-! ## `execute_command` -/

/-- The string left in `full_path` by
`snprintf(full_path, sizeof(full_path), "%s/%s", path[i], command)`: at most
`MAX_INPUT_SIZE - 1` characters are written before the NUL. -/
def full_path (dir command : CStr) : CStr :=
  (dir ++ '/' :: command).take (MAX_INPUT_SIZE - 1)

/-- The function `execute_command` in the calling process, on the entries of
`path` from index `i` on: the trace and the returned `int`. -/
def execute_command (os : OS) (command : CStr) (args : Args) (output_file : Option CStr) :
    List CStr → List Event × Int
  | [] => ([.error], -1)
  | dir :: path =>
    if os.access (full_path dir command) then
      match os.fork 0 with
      | .created pid =>
        ([.access (full_path dir command),
          .fork (.exec (full_path dir command) (argv args) output_file) (.created pid),
          .waitpid pid], 0)
      | .failed =>
        ([.access (full_path dir command),
          .fork (.exec (full_path dir command) (argv args) output_file) .failed,
          .error], -1)
    else
      (.access (full_path dir command) :: (execute_command os command args output_file path).1,
        (execute_command os command args output_file path).2)

/-! ## `execute_parallel_commands` -/

/-- The statement `args[arg_count] = NULL;` after the tokenizer loop of
`execute_parallel_commands`, with the values the loop leaves. -/
def batch_exit (arg_count : Nat) (args : Args) (output_file : Option CStr) :
    Except Fault (Option ParseResult) :=
  match store args arg_count none with
  | .error e => .error e
  | .ok args1 => .ok (some ⟨(arg_count : Int), args1, output_file⟩)

/-- The tokenizer loop inside `execute_parallel_commands` and the statement
`args[arg_count] = NULL` after it.  The result is `none` when the loop leaves
through `print_error(); return -1;`. -/
def batch_loop : Nat → Option CStr → CStr → Nat → Args → Option CStr →
    Except Fault (Option ParseResult)
  | 0, _, _, _, _, _ => .error .out_of_fuel
  | fuel + 1, token, cur, arg_count, args, output_file =>
    match token with
    | none => batch_exit arg_count args output_file
    | some tok =>
      if arg_count < MAX_ARGS - 1 then
        if tok = MARKER then
          match strtok WS cur, output_file with
          | (some file, cur1), none =>
            batch_loop fuel (strtok WS cur1).1 (strtok WS cur1).2 arg_count args (some file)
          | _, _ => .ok none
        else
          match store args arg_count (some tok) with
          | .error e => .error e
          | .ok args1 =>
            batch_loop fuel (strtok WS cur).1 (strtok WS cur).2 (arg_count + 1) args1 output_file
      else batch_exit arg_count args output_file

/-- The tokenizer loop of `execute_parallel_commands` read over the list of
tokens that the successive `strtok` calls return. -/
def batch_tokens : List CStr → Nat → Args → Option CStr → Except Fault (Option ParseResult)
  | [], arg_count, args, output_file => batch_exit arg_count args output_file
  | tok :: rest, arg_count, args, output_file =>
    if arg_count < MAX_ARGS - 1 then
      if tok = MARKER then
        match rest, output_file with
        | file :: rest1, none => batch_tokens rest1 arg_count args (some file)
        | _, _ => .ok none
      else
        match store args arg_count (some tok) with
        | .error e => .error e
        | .ok args1 => batch_tokens rest (arg_count + 1) args1 output_file
    else batch_exit arg_count args output_file

/-- The tokenization of one batch member, on a fresh argument array. -/
def batch_tokenize (command : CStr) (args : Args) : Except Fault (Option ParseResult) :=
  batch_loop (command.length + 1) (strtok WS command).1 (strtok WS command).2 0 args none

/-- The first `for` loop of `execute_parallel_commands` from index `i` on, with
`remaining = command_count - i`.  The result is the trace, and the array `pids`
when the loop runs to its end or `none` when the function returns -1 inside
the loop. -/
def launch_loop (os : OS) (mem : Uninit) (commands : List CStr) :
    Nat → Nat → List Int → Except Fault (List Event × Option (List Int))
  | 0, _, pids => .ok ([], some pids)
  | remaining + 1, i, pids =>
    match load commands i with
    | .error e => .error e
    | .ok command =>
      match batch_tokenize command (fresh MAX_ARGS mem.args) with
      | .error e => .error e
      | .ok none => .ok ([.error], none)
      | .ok (some r) =>
        if r.ret = 0 then launch_loop os mem commands remaining (i + 1) pids
        else
          match load r.args 0 with
          | .error e => .error e
          | .ok none => .error .null_pointer
          | .ok (some arg0) =>
            match os.fork i with
            | .created pid =>
              match store pids i pid with
              | .error e => .error e
              | .ok pids1 =>
                match launch_loop os mem commands remaining (i + 1) pids1 with
                | .error e => .error e
                | .ok (events, result) =>
                  .ok (.fork (.command arg0 (argv r.args) r.output_file) (.created pid) :: events,
                    result)
            | .failed =>
              .ok ([.fork (.command arg0 (argv r.args) r.output_file) .failed, .error], none)

/-- The second `for` loop of `execute_parallel_commands` from index `i` on,
with `remaining = command_count - i`: one `waitpid(pids[i], ...)` per index. -/
def join_loop (pids : List Int) : Nat → Nat → Except Fault (List Event)
  | 0, _ => .ok []
  | remaining + 1, i =>
    match load pids i with
    | .error e => .error e
    | .ok pid =>
      match join_loop pids remaining (i + 1) with
      | .error e => .error e
      | .ok events => .ok (.waitpid pid :: events)

/-- The function `execute_parallel_commands(commands, command_count)` in the
calling process: the trace and the returned `int`. -/
def execute_parallel_commands (os : OS) (mem : Uninit) (commands : List CStr)
    (command_count : Nat) : Except Fault (List Event × Int) :=
  match launch_loop os mem commands command_count 0 (fresh command_count mem.pids) with
  | .error e => .error e
  | .ok (events, none) => .ok (events, -1)
  | .ok (events, some pids) =>
    match join_loop pids command_count 0 with
    | .error e => .error e
    | .ok joins => .ok (events ++ joins, 0)

/-- The events that `execute_parallel_commands` can produce: a process
creation for a child that resolves an external command, an error report, a
join. -/
def is_batch_event : Event → Bool
  | .fork (.command _ _ _) _ => true
  | .error => true
  | .waitpid _ => true
  | _ => false

/-! ## One iteration of the session loop of `main` -/

/-- The state of the shell that outlives a prompt cycle: the global `path`
(with `path_size` its length) and the working directory of the process. -/
structure Shell where
  path : List CStr
  cwd : CStr
  deriving DecidableEq, Repr

/-- What `getline` delivers: end of input (-1), or the bytes of a line, with
its newline when it has one; NUL bytes may be among them. -/
inductive Input where
  | eof
  | line (raw : List Char)
  deriving DecidableEq, Repr

/-- The input events whose line holds no NUL byte, so that the bytes read are
the text of the line. -/
def text_input : Input → Prop
  | .eof => True
  | .line raw => ∀ c ∈ raw, c ≠ '\x00'

/-- The outcome of one iteration of `while (1)`: the trace, the shell state
after it, and whether the loop was left through `break`. -/
structure Step where
  events : List Event
  shell : Shell
  stop : Bool
  deriving DecidableEq, Repr

/-- The state after `initialize_path()`, in the working directory `cwd`. -/
def initialize_path (cwd : CStr) : Shell := ⟨[['/', 'b', 'i', 'n']], cwd⟩

/-- The copy loop of the `path` built-in from index `i` on, with
`remaining = arg_count - i`: `new_path[i - 1] = strdup(args[i])`. -/
def path_copy (args : Args) : Nat → Nat → Except Fault (List CStr)
  | 0, _ => .ok []
  | remaining + 1, i =>
    match load args i with
    | .error e => .error e
    | .ok none => .error .null_pointer
    | .ok (some dir) =>
      match path_copy args remaining (i + 1) with
      | .error e => .error e
      | .ok new_path => .ok (dir :: new_path)

/-- The function `update_path`: the old entries are freed and the global
`path` is the new array. -/
def update_path (sh : Shell) (new_path : List CStr) : Shell := { sh with path := new_path }

/-- The name `exit`. -/
def EXIT : CStr := ['e', 'x', 'i', 't']

/-- The name `cd`. -/
def CD : CStr := ['c', 'd']

/-- The name `path`. -/
def PATH : CStr := ['p', 'a', 't', 'h']

/-- The built-in dispatch of `main` for a command with `arg_count >= 1`. -/
def dispatch (os : OS) (sh : Shell) (arg0 : CStr) (r : ParseResult) : Except Fault Step :=
  if arg0 = EXIT then
    if r.ret > 1 then .ok ⟨[.prompt, .error], sh, false⟩
    else .ok ⟨[.prompt], sh, true⟩
  else if arg0 = CD then
    if r.ret ≠ 2 then .ok ⟨[.prompt, .error], sh, false⟩
    else
      match load r.args 1 with
      | .error e => .error e
      | .ok none => .error .null_pointer
      | .ok (some dir) =>
        match os.chdir sh.cwd dir with
        | none => .ok ⟨[.prompt, .chdir dir, .error], sh, false⟩
        | some cwd1 => .ok ⟨[.prompt, .chdir dir], { sh with cwd := cwd1 }, false⟩
  else if arg0 = PATH then
    match path_copy r.args (r.ret.toNat - 1) 1 with
    | .error e => .error e
    | .ok new_path => .ok ⟨[.prompt], update_path sh new_path, false⟩
  else
    .ok ⟨.prompt :: (execute_command os arg0 r.args r.output_file sh.path).1, sh, false⟩

/-- The part of the loop body of `main` under `// Handle Single Command`, for
the sub-command `command`. -/
def run_single (os : OS) (mem : Uninit) (sh : Shell) (command : CStr) : Except Fault Step :=
  match parse_command command (fresh MAX_ARGS mem.args) with
  | .error e => .error e
  | .ok r =>
    if r.ret = -1 then .ok ⟨[.prompt, .error], sh, false⟩
    else if r.ret = 0 then .ok ⟨[.prompt], sh, false⟩
    else
      match load r.args 0 with
      | .error e => .error e
      | .ok none => .error .null_pointer
      | .ok (some arg0) => dispatch os sh arg0 r

/-- One iteration of the session loop of `main`. -/
def main_iteration (os : OS) (mem : Uninit) (sh : Shell) : Input → Except Fault Step
  | .eof => .ok ⟨[.prompt], sh, true⟩
  | .line raw =>
    if is_empty_or_whitespace (read_line raw) then .ok ⟨[.prompt], sh, false⟩
    else
      match split_parallel (read_line raw) (fresh MAX_ARGS mem.parallel_commands) with
      | .error e => .error e
      | .ok (parallel_commands, parallel_count) =>
        if parallel_count = 0 then .ok ⟨[.prompt], sh, false⟩
        else if parallel_count > 1 then
          match execute_parallel_commands os mem parallel_commands parallel_count with
          | .error e => .error e
          | .ok (events, _) => .ok ⟨.prompt :: events, sh, false⟩
        else
          match load parallel_commands 0 with
          | .error e => .error e
          | .ok command => run_single os mem sh command

/-! ## Data of the counterexamples -/

/-- Uninitialised arrays that happen to hold NULL pointers, empty strings and
the pid -1. -/
def blank_mem : Uninit := ⟨fun _ => none, fun _ => [], fun _ => -1⟩

/-- A system with no executable file, in which process creation succeeds with
the pids 100, 101, ... and no directory can be entered. -/
def bare_os : OS := ⟨fun _ => false, fun i => .created (100 + i), fun _ _ => none⟩

/-- A command name of 250 characters. -/
def long_name : CStr := List.replicate 250 'a'

/-- The first 254 characters of `/bin/` followed by `long_name`. -/
def cut_name : CStr := ['/', 'b', 'i', 'n', '/'] ++ List.replicate 249 'a'

/-- A system in which the only executable file is `cut_name` and process
creation succeeds. -/
def cut_os : OS := ⟨fun p => p == cut_name, fun _ => .created 7, fun _ _ => none⟩

/-! ## The batch of a line in the words of the specification -/

/-- The trimmed form of a string: its leading and its trailing whitespace
removed. -/
def strip (s : CStr) : CStr := (s.dropWhile isspace).rdropWhile isspace

/-- The batch of a line as the specification words it: the pieces of the line
between parallel separators, each trimmed, the empty ones dropped. -/
def splitParallel (line : CStr) : List CStr :=
  ((line.splitOn '&').map strip).filter (fun piece => piece ≠ [])

/-- A system with no executable file in which process creation succeeds for
the batch member 0, with the pid 100, and fails for every other member. -/
def second_fork_fails : OS :=
  ⟨fun _ => false, fun i => if i = 0 then .created 100 else .failed, fun _ _ => none⟩

/-! ## The producer and the consumer of `Multithreaded.c` -/

/-- The value of `CIRCULAR_BUFFER_SIZE`. -/
def CIRCULAR_BUFFER_SIZE : Nat := 15

/-- An array write `a[i] = v` with an `int` index. -/
def store_int {α : Type} (a : List α) (i : Int) (v : α) : Except Fault (List α) :=
  if i < 0 then .error .out_of_bounds else store a i.toNat v

/-- An array read `a[i]` with an `int` index. -/
def load_int {α : Type} (a : List α) (i : Int) : Except Fault α :=
  if i < 0 then .error .out_of_bounds else load a i.toNat

/-- The shared variables `buffer`, `buffer_counter`, `buffer_in`, `buffer_out`,
the loop variable `i` of the producer, and what the two threads have printed
so far: `produced` for the lines `Produced: %c`, `consumed` for the lines
`Consumed: %c`. -/
structure Shared where
  buffer : List Char
  buffer_counter : Int
  buffer_in : Int
  buffer_out : Int
  i : Nat
  produced : List Char
  consumed : List Char
  deriving DecidableEq, Repr

/-- The state after the reset at the top of the loop of `main`, with the
buffer as the previous round left it. -/
def reset (buffer : List Char) : Shared := ⟨buffer, 0, 0, 0, 0, [], []⟩

/-- The critical section of the producer after its wait loop:
`buffer[buffer_in] = input[i]`, the print, the two updates, and `i++`.  The
operator `%` of C is `Int.tmod`. -/
def producer_section (input : CStr) (s : Shared) : Except Fault Shared :=
  match load input s.i with
  | .error e => .error e
  | .ok c =>
    match store_int s.buffer s.buffer_in c with
    | .error e => .error e
    | .ok buffer1 =>
      .ok { s with
        buffer := buffer1
        produced := s.produced ++ [c]
        buffer_in := (s.buffer_in + 1).tmod (CIRCULAR_BUFFER_SIZE : Int)
        buffer_counter := s.buffer_counter + 1
        i := s.i + 1 }

/-- The critical section of the consumer after its wait loop and its exit
test: `c = buffer[buffer_out]`, the print, and the two updates. -/
def consumer_section (s : Shared) : Except Fault Shared :=
  match load_int s.buffer s.buffer_out with
  | .error e => .error e
  | .ok c =>
    .ok { s with
      consumed := s.consumed ++ [c]
      buffer_out := (s.buffer_out + 1).tmod (CIRCULAR_BUFFER_SIZE : Int)
      buffer_counter := s.buffer_counter - 1 }

/-- The states reached from the reset state by critical sections of the two
threads in any interleaving.  The producer enters its section for `input[i]`
with `i < input_length` once `buffer_counter == CIRCULAR_BUFFER_SIZE` is
false; the consumer enters its section once `buffer_counter == 0` is false. -/
inductive Reachable (input : CStr) (buffer : List Char) : Shared → Prop where
  | start : Reachable input buffer (reset buffer)
  | producer (s s1 : Shared) : Reachable input buffer s → s.i < input.length →
      s.buffer_counter ≠ (CIRCULAR_BUFFER_SIZE : Int) → producer_section input s = .ok s1 →
      Reachable input buffer s1
  | consumer (s s1 : Shared) : Reachable input buffer s → s.buffer_counter ≠ 0 →
      consumer_section s = .ok s1 → Reachable input buffer s1

/-- The invariant of the circular buffer: the counter `c` and the read index
`o` are in range, the write index is `c` places after the read index, what was
produced is the part of the input the producer has passed, and the `c` places
from the read index on hold, in order, the characters produced and not yet
consumed. -/
def buffer_invariant (input : CStr) (s : Shared) : Prop :=
  ∃ c o : Nat, s.buffer_counter = (c : Int) ∧ s.buffer_out = (o : Int) ∧
    s.buffer_in = (((o + c) % 15 : Nat) : Int) ∧ c ≤ 15 ∧ o < 15 ∧
    s.buffer.length = 15 ∧ s.i ≤ input.length ∧ s.produced = input.take s.i ∧
    s.consumed.length + c = s.produced.length ∧
    (∀ k : Nat, k < c → s.buffer[(o + k) % 15]? = s.produced[s.consumed.length + k]?) ∧
    s.consumed <+: s.produced

/-! ## Tokens and `strtok` -/

theorem splitOnP_eq_takeWhile_cons (p : Char → Bool) (cs : CStr) :
    cs.splitOnP p = cs.takeWhile (fun x => !p x) ::
      (match cs.dropWhile (fun x => !p x) with
        | [] => []
        | _ :: r => r.splitOnP p) := by
  induction cs with
  | nil => simp
  | cons x xs ih =>
    rw [List.splitOnP_cons]
    by_cases hx : p x = true
    · simp [hx]
    · simp only [hx, if_false]
      rw [ih]
      simp [hx]

theorem tokens_nil (delim : CStr) : tokens delim [] = [] := by
  simp [tokens]

theorem tokens_cons_delim (delim : CStr) (c : Char) (cs : CStr) (h : isDelim delim c = true) :
    tokens delim (c :: cs) = tokens delim cs := by
  simp [tokens, List.splitOnP_cons, h]

theorem tokens_dropWhile (delim : CStr) (s : CStr) :
    tokens delim (s.dropWhile (isDelim delim)) = tokens delim s := by
  induction s with
  | nil => rfl
  | cons x xs ih =>
    by_cases hx : isDelim delim x = true
    · rw [List.dropWhile_cons_of_pos hx, ih, tokens_cons_delim delim x xs hx]
    · rw [List.dropWhile_cons_of_neg hx]

/-- Successive `strtok` calls enumerate the tokens of the string. -/
theorem tokens_strtok (delim : CStr) (s : CStr) :
    tokens delim s =
      match strtok delim s with
      | (none, _) => []
      | (some t, cur) => t :: tokens delim cur := by
  rw [← tokens_dropWhile]
  unfold strtok
  cases hs : s.dropWhile (isDelim delim) with
  | nil => simp [tokens]
  | cons c cs =>
    have hc : isDelim delim c = false := by
      have := List.head_dropWhile_not (isDelim delim) s (by simp [hs])
      simpa [hs] using this
    simp only
    unfold tokens
    rw [splitOnP_eq_takeWhile_cons]
    rw [List.filter_cons_of_pos (by simp [hc])]
    congr 1
    cases hd : (c :: cs).dropWhile (fun x => !isDelim delim x) with
    | nil => simp
    | cons y ys => simp

theorem strtok_length (delim : CStr) (s t cur : CStr) (h : strtok delim s = (some t, cur)) :
    cur.length < s.length := by
  unfold strtok at h
  cases hs : s.dropWhile (isDelim delim) with
  | nil => simp [hs] at h
  | cons c cs =>
    rw [hs] at h
    simp only [Prod.mk.injEq, Option.some.injEq] at h
    have h1 : (c :: cs).length ≤ s.length := by
      rw [← hs]
      exact (List.dropWhile_sublist _).length_le
    have h2 : ((c :: cs).dropWhile (fun x => !isDelim delim x)).length ≤ cs.length := by
      have hc : isDelim delim c = false := by
        have := List.head_dropWhile_not (isDelim delim) s (by simp [hs])
        simpa [hs] using this
      rw [List.dropWhile_cons_of_pos (by simp [hc])]
      exact (List.dropWhile_sublist _).length_le
    rw [← h.2, List.length_drop]
    simp only [List.length_cons] at h1
    omega

theorem strtok_none (delim : CStr) (s cur : CStr) (h : strtok delim s = (none, cur)) :
    tokens delim s = [] := by
  rw [tokens_strtok, h]

theorem strtok_some (delim : CStr) (s t cur : CStr) (h : strtok delim s = (some t, cur)) :
    tokens delim s = t :: tokens delim cur := by
  rw [tokens_strtok, h]

/-! ## The loop of `parse_command` over the token list -/

theorem parse_tokens_cons (tok : CStr) (rest : List CStr) (arg_count : Nat)
    (redirection_found : Bool) (args : Args) (output_file : Option CStr) :
    parse_tokens (tok :: rest) arg_count redirection_found args output_file =
      if arg_count < MAX_ARGS - 1 then
        if tok = MARKER then
          if redirection_found || arg_count == 0 then
            .ok ⟨-1, args, output_file⟩
          else
            match rest with
            | [] => .ok ⟨-1, args, output_file⟩
            | file :: rest1 => parse_tokens rest1 arg_count true args (some file)
        else if redirection_found then
          .ok ⟨-1, args, output_file⟩
        else
          match store args arg_count (some tok) with
          | .error e => .error e
          | .ok args1 => parse_tokens rest (arg_count + 1) redirection_found args1 output_file
      else parse_exit arg_count args output_file := by
  cases rest <;> simp only [parse_tokens]

theorem parse_loop_eq_tokens (fuel : Nat) (cur : CStr) (arg_count : Nat)
    (redirection_found : Bool) (args : Args) (output_file : Option CStr)
    (hfuel : cur.length < fuel) :
    parse_loop fuel (strtok WS cur).1 (strtok WS cur).2 arg_count redirection_found args
        output_file
      = parse_tokens (tokens WS cur) arg_count redirection_found args output_file := by
  induction fuel generalizing cur arg_count redirection_found args output_file with
  | zero => omega
  | succ fuel ih =>
    cases h : strtok WS cur with
    | mk token cur1 =>
      cases token with
      | none =>
        rw [strtok_none WS cur cur1 h]
        simp [parse_loop, parse_tokens]
      | some tok =>
        have hlt := strtok_length WS cur tok cur1 h
        rw [strtok_some WS cur tok cur1 h, parse_tokens_cons]
        simp only [parse_loop]
        by_cases h1 : arg_count < MAX_ARGS - 1
        · simp only [h1, if_true]
          by_cases h2 : tok = MARKER
          · simp only [h2, if_true]
            by_cases h3 : (redirection_found || arg_count == 0) = true
            · simp only [h3, if_true]
            · simp only [h3, if_false]
              cases h4 : strtok WS cur1 with
              | mk token2 cur2 =>
                cases token2 with
                | none =>
                  rw [strtok_none WS cur1 cur2 h4]
                | some file =>
                  have hlt2 := strtok_length WS cur1 file cur2 h4
                  rw [strtok_some WS cur1 file cur2 h4]
                  exact ih cur2 arg_count true args (some file) (by omega)
          · simp only [h2, if_false]
            cases redirection_found with
            | true => rfl
            | false =>
              simp only [Bool.false_eq_true, if_false]
              cases store args arg_count (some tok) with
              | error e => rfl
              | ok args1 =>
                exact ih cur1 (arg_count + 1) false args1 output_file (by omega)
        · simp only [h1, if_false]

/-- The function `parse_command` is the token loop run on the tokens of its input. -/
theorem parse_command_eq_tokens (input : CStr) (args : Args) :
    parse_command input args = parse_tokens (tokens WS input) 0 false args none :=
  parse_loop_eq_tokens (input.length + 1) input 0 false args none (Nat.lt_succ_self _)

theorem store_ok {α : Type} (a : List α) (i : Nat) (v : α) (h : i < a.length) :
    store a i v = .ok (a.set i v) := by
  simp [store, h]

theorem take_succ_set {α : Type} (a : List α) (i : Nat) (v : α) (h : i < a.length) :
    (a.set i v).take (i + 1) = a.take i ++ [v] := by
  rw [List.take_succ, List.set_take, List.set_eq_of_length_le (by simp)]
  simp [h]

theorem length_of_store {α : Type} (a a1 : List α) (i : Nat) (v : α) (h : store a i v = .ok a1) :
    a1.length = a.length := by
  unfold store at h
  split at h
  · simp only [Except.ok.injEq] at h
    rw [← h, List.length_set]
  · simp at h

/-- The argument phase of the loop: tokens other than the marker are stored in
consecutive slots as long as fewer than `MAX_ARGS - 1` are held. -/
theorem parse_tokens_args (as rest : List CStr) (n : Nat) (args : Args)
    (output_file : Option CStr) (hno : ∀ a ∈ as, a ≠ MARKER)
    (hn : n + as.length ≤ MAX_ARGS - 1) (hlen : args.length = MAX_ARGS) :
    ∃ args1 : Args, args1.length = MAX_ARGS ∧
      args1.take (n + as.length) = args.take n ++ as.map some ∧
      parse_tokens (as ++ rest) n false args output_file
        = parse_tokens rest (n + as.length) false args1 output_file := by
  induction as generalizing n args with
  | nil => exact ⟨args, hlen, by simp, rfl⟩
  | cons a as ih =>
    have ha : a ≠ MARKER := hno a (List.mem_cons_self _ _)
    simp only [List.length_cons] at hn
    have hlt : n < args.length := by
      rw [hlen]
      simp only [MAX_ARGS] at hn ⊢
      omega
    have hset : (args.set n (some a)).length = MAX_ARGS := by
      rw [List.length_set, hlen]
    obtain ⟨args1, h1, h2, h3⟩ := ih (n + 1) (args.set n (some a))
      (fun x hx => hno x (List.mem_cons_of_mem _ hx)) (by omega) hset
    refine ⟨args1, h1, ?_, ?_⟩
    · have e : n + (a :: as).length = n + 1 + as.length := by
        simp only [List.length_cons]
        omega
      rw [e, h2, take_succ_set args n (some a) hlt]
      simp
    · have e : n + (a :: as).length = n + 1 + as.length := by
        simp only [List.length_cons]
        omega
      rw [e, ← h3, List.cons_append, parse_tokens_cons]
      have hn1 : n < MAX_ARGS - 1 := by omega
      simp only [hn1, if_true, ha, if_false, Bool.false_eq_true, store_ok args n (some a) hlt]

/-! ## Claims about `parse_command` -/

/-- The result of the token loop on at most 63 tokens that spell arguments and
an optional redirection. -/
theorem parse_tokens_of_form (as : List CStr) (f : Option CStr) (args : Args)
    (hargs : args.length = MAX_ARGS) (hno : ∀ a ∈ as, a ≠ MARKER)
    (hf : f ≠ none → as ≠ []) (hlen : (as ++ redirection f).length ≤ 63) :
    ∃ args1 : Args,
      parse_tokens (as ++ redirection f) 0 false args none
        = .ok ⟨(as.length : Int), args1, f⟩ ∧
      args1.length = MAX_ARGS ∧
      args1.take (as.length + 1) = as.map some ++ [none] := by
  have hn : 0 + as.length ≤ MAX_ARGS - 1 := by
    simp only [List.length_append, MAX_ARGS] at hlen ⊢
    omega
  obtain ⟨args1, h1, h2, h3⟩ := parse_tokens_args as (redirection f) 0 args none hno hn hargs
  simp only [Nat.zero_add, List.take_zero, List.nil_append] at h1 h2 h3
  have hlt : as.length < args1.length := by
    rw [h1]
    simp only [MAX_ARGS] at hn ⊢
    omega
  refine ⟨args1.set as.length none, ?_, ?_, ?_⟩
  · rw [h3]
    cases f with
    | none => simp [redirection, parse_tokens, parse_exit, store_ok args1 as.length none hlt]
    | some file =>
      have hpos : as.length ≠ 0 := by
        intro h0
        exact hf (by simp) (List.length_eq_zero.mp h0)
      have hlt2 : as.length < MAX_ARGS - 1 := by
        simp only [redirection, List.length_append, List.length_cons, List.length_nil,
          MAX_ARGS] at hlen ⊢
        omega
      simp only [redirection, parse_tokens_cons, hlt2, if_true, Bool.false_or, beq_iff_eq, hpos,
        if_false]
      simp [parse_tokens, parse_exit, store_ok args1 as.length none hlt]
  · rw [List.length_set, h1]
  · rw [take_succ_set args1 as.length none hlt, h2]

/-- C1: for a sub-command string with at most 63 tokens, of the form
`a1 ... an` with no `ai` equal to `>`, optionally followed by the marker `>`
and one token `f` (then `n >= 1`), `parse_command` returns `n`, stores
`a1 .. an` in `args[0..n)`, stores NULL in `args[n]`, and sets the output
target to `f`, or to NULL when there is no marker. -/
theorem parse_command_well_formed (input : CStr) (as : List CStr) (f : Option CStr)
    (args : Args) (hargs : args.length = MAX_ARGS) (hno : ∀ a ∈ as, a ≠ MARKER)
    (hform : tokens WS input = as ++ redirection f)
    (hf : f ≠ none → as ≠ []) (hlen : (tokens WS input).length ≤ 63) :
    ∃ args1 : Args, parse_command input args = .ok ⟨(as.length : Int), args1, f⟩ ∧
      args1.take (as.length + 1) = as.map some ++ [none] := by
  rw [parse_command_eq_tokens, hform]
  rw [hform] at hlen
  obtain ⟨args1, h1, _, h3⟩ := parse_tokens_of_form as f args hargs hno hf hlen
  exact ⟨args1, h1, h3⟩

theorem parse_command_well_formed_witness :
    ∃ args1 : Args,
      parse_command ['l', 's', ' ', '-', 'l', ' ', '>', ' ', 'o', 'u', 't']
          (List.replicate 64 none)
        = .ok ⟨2, args1, some ['o', 'u', 't']⟩ ∧
      args1.take 3 = [some ['l', 's'], some ['-', 'l'], none] :=
  parse_command_well_formed ['l', 's', ' ', '-', 'l', ' ', '>', ' ', 'o', 'u', 't']
    [['l', 's'], ['-', 'l']] (some ['o', 'u', 't']) (List.replicate 64 none)
    (by decide) (by decide) (by decide) (by decide) (by decide)

/-- C3: when the first token of the sub-command string is the marker `>`,
`parse_command` returns -1, whatever follows the marker. -/
theorem parse_command_leading_marker (input : CStr) (args : Args)
    (h : (tokens WS input).head? = some MARKER) :
    ∃ args1 output_file, parse_command input args = .ok ⟨-1, args1, output_file⟩ := by
  rw [parse_command_eq_tokens]
  cases ht : tokens WS input with
  | nil => simp [ht] at h
  | cons tok rest =>
    simp only [ht, List.head?_cons, Option.some.injEq] at h
    refine ⟨args, none, ?_⟩
    rw [parse_tokens_cons]
    simp [h, MAX_ARGS]

theorem parse_command_leading_marker_witness :
    ∃ args1 output_file,
      parse_command ['>', ' ', 'o', 'u', 't'] (List.replicate 64 none)
        = .ok ⟨-1, args1, output_file⟩ :=
  parse_command_leading_marker ['>', ' ', 'o', 'u', 't'] (List.replicate 64 none) (by decide)

set_option maxRecDepth 100000

/-- C2, as stated, fails: the string of 63 tokens `a` followed by the marker
`>` contains the marker with no token after it, and `parse_command` returns
63, not -1. -/
theorem parse_command_marker_counterexample :
    tokens WS ((List.replicate 63 ['a', ' ']).flatten ++ ['>'])
        = List.replicate 63 ['a'] ++ [MARKER] ∧
      (parse_command ((List.replicate 63 ['a', ' ']).flatten ++ ['>'])
          (List.replicate 64 none)).map (fun r => r.ret) = .ok 63 := by
  constructor
  · decide
  · decide

/-- C2, amended: when at most 62 tokens precede the first marker `>` of the
sub-command string, `parse_command` returns -1 unless exactly one token
follows that marker; in particular when no token follows it and when a token
follows the file name. -/
theorem parse_command_marker_strict (input : CStr) (pre post : List CStr) (args : Args)
    (hargs : args.length = MAX_ARGS) (hpre : ∀ a ∈ pre, a ≠ MARKER)
    (hform : tokens WS input = pre ++ MARKER :: post) (hlen : pre.length ≤ 62)
    (hpost : post.length ≠ 1) :
    ∃ args1 output_file, parse_command input args = .ok ⟨-1, args1, output_file⟩ := by
  rw [parse_command_eq_tokens, hform]
  have hn : 0 + pre.length ≤ MAX_ARGS - 1 := by
    simp only [MAX_ARGS]
    omega
  obtain ⟨args1, _, _, h3⟩ := parse_tokens_args pre (MARKER :: post) 0 args none hpre hn hargs
  rw [h3, Nat.zero_add, parse_tokens_cons]
  have hlt : pre.length < MAX_ARGS - 1 := by
    simp only [MAX_ARGS]
    omega
  simp only [hlt, if_true, Bool.false_or]
  by_cases h0 : (pre.length == 0) = true
  · exact ⟨args1, none, by simp only [h0, if_true]⟩
  · simp only [h0, if_false]
    match post, hpost with
    | [], _ => exact ⟨args1, none, rfl⟩
    | [_], hp => exact absurd rfl hp
    | file :: tok :: rest, _ =>
      refine ⟨args1, some file, ?_⟩
      simp only
      rw [parse_tokens_cons]
      by_cases hm : tok = MARKER
      · simp [hlt, hm]
      · simp [hlt, hm]

theorem parse_command_marker_strict_witness :
    (∃ args1 output_file,
      parse_command ['c', 'm', 'd', ' ', '>'] (List.replicate 64 none)
        = .ok ⟨-1, args1, output_file⟩) ∧
    (∃ args1 output_file,
      parse_command ['c', ' ', '>', ' ', 'o', ' ', 'x'] (List.replicate 64 none)
        = .ok ⟨-1, args1, output_file⟩) :=
  ⟨parse_command_marker_strict ['c', 'm', 'd', ' ', '>'] [['c', 'm', 'd']] []
      (List.replicate 64 none) (by decide) (by decide) (by decide) (by decide) (by decide),
    parse_command_marker_strict ['c', ' ', '>', ' ', 'o', ' ', 'x'] [['c']] [['o'], ['x']]
      (List.replicate 64 none) (by decide) (by decide) (by decide) (by decide) (by decide)⟩

/-! ## `trim` and `is_empty_or_whitespace` -/

theorem trim_end_take (l : CStr) (c : Char) (cs : CStr) (hl : l = c :: cs)
    (hc : isspace c = false) (e : Nat) (he : e < l.length) :
    l.take (trim_end l e + 1) = (l.take (e + 1)).rdropWhile isspace := by
  induction e with
  | zero =>
    subst hl
    simp [trim_end, List.rdropWhile_singleton, hc]
  | succ e ih =>
    have hget : l.getD (e + 1) '\x00' = l[e + 1] := by
      simp [List.getD_eq_getElem?_getD, List.getElem?_eq_getElem he]
    have htake : l.take (e + 1 + 1) = l.take (e + 1) ++ [l[e + 1]] := by
      rw [List.take_succ, List.getElem?_eq_getElem he]
      rfl
    rw [htake]
    by_cases hs : isspace l[e + 1] = true
    · rw [List.rdropWhile_concat_pos _ _ _ hs, ← ih (by omega)]
      have e1 : trim_end l (e + 1) = trim_end l e := by
        rw [trim_end, hget, hs]
        rfl
      rw [e1]
    · rw [List.rdropWhile_concat_neg _ _ _ hs, ← htake]
      have e1 : trim_end l (e + 1) = e + 1 := by
        rw [trim_end, hget]
        simp only [hs]
        rfl
      rw [e1]

/-- The function `trim` computes the trimmed form. -/
theorem trim_eq_strip (s : CStr) : trim s = strip s := by
  unfold trim strip
  cases h : s.dropWhile isspace with
  | nil => simp
  | cons c cs =>
    have hc : isspace c = false := by
      have := List.head_dropWhile_not isspace s (by simp [h])
      simpa [h] using this
    simp only
    rw [trim_end_take (c :: cs) c cs rfl hc ((c :: cs).length - 1) (by simp)]
    simp

theorem is_empty_or_whitespace_eq (s : CStr) : is_empty_or_whitespace s = s.all isspace := by
  induction s with
  | nil => rfl
  | cons c cs ih =>
    cases hc : isspace c <;> simp [is_empty_or_whitespace, hc, ih]

theorem strip_eq_nil_iff (s : CStr) : strip s = [] ↔ ∀ c ∈ s, isspace c = true := by
  unfold strip
  rw [List.rdropWhile_eq_nil_iff]
  constructor
  · intro h
    have h2 : s.dropWhile isspace = [] := by
      cases hd : s.dropWhile isspace with
      | nil => rfl
      | cons c cs =>
        have hc := List.head_dropWhile_not isspace s (by simp [hd])
        have hc2 : isspace c = true := h c (by simp [hd])
        simp [hd, hc2] at hc
    simpa using h2
  · intro h c hc
    exact h c ((List.dropWhile_sublist _).subset hc)

theorem strip_head (s : CStr) (c : Char) (cs : CStr) (h : strip s = c :: cs) :
    isspace c = false := by
  unfold strip at h
  have hp : (s.dropWhile isspace).rdropWhile isspace <+: s.dropWhile isspace :=
    List.rdropWhile_prefix isspace _
  obtain ⟨t, ht⟩ := hp
  rw [h] at ht
  have := List.head_dropWhile_not isspace s (by simp [← ht])
  simpa [← ht] using this

theorem strip_getLast (s : CStr) (h : strip s ≠ []) : isspace ((strip s).getLast h) = false := by
  have := List.rdropWhile_last_not isspace (s.dropWhile isspace) h
  simpa using this

theorem blank_strip (s : CStr) : is_empty_or_whitespace (strip s) = true ↔ strip s = [] := by
  constructor
  · intro h
    cases hs : strip s with
    | nil => rfl
    | cons c cs =>
      have hc := strip_head s c cs hs
      rw [hs] at h
      simp [is_empty_or_whitespace, hc] at h
  · intro h
    rw [h]
    rfl

/-! ## The split loop of `main` -/

theorem split_loop_eq_tokens (fuel : Nat) (saveptr : CStr) (parallel_commands : List CStr)
    (parallel_count : Nat) (hfuel : saveptr.length < fuel) :
    split_loop fuel (strtok AMP saveptr).1 (strtok AMP saveptr).2 parallel_commands
        parallel_count
      = split_tokens (tokens AMP saveptr) parallel_commands parallel_count := by
  induction fuel generalizing saveptr parallel_commands parallel_count with
  | zero => omega
  | succ fuel ih =>
    cases h : strtok AMP saveptr with
    | mk token cur1 =>
      cases token with
      | none =>
        rw [strtok_none AMP saveptr cur1 h]
        rfl
      | some tok =>
        have hlt := strtok_length AMP saveptr tok cur1 h
        rw [strtok_some AMP saveptr tok cur1 h]
        simp only [split_loop, split_tokens]
        by_cases h1 : parallel_count < MAX_ARGS
        · simp only [h1, if_true]
          cases is_empty_or_whitespace (trim tok) with
          | true =>
            simp only [Bool.not_true, Bool.false_eq_true, if_false]
            exact ih cur1 parallel_commands parallel_count (by omega)
          | false =>
            simp only [Bool.not_false, if_true]
            cases store parallel_commands parallel_count (trim tok) with
            | error e => rfl
            | ok pc1 => exact ih cur1 pc1 (parallel_count + 1) (by omega)
        · simp only [h1, if_false]

theorem split_parallel_eq_tokens (trimmed_input : CStr) (parallel_commands : List CStr) :
    split_parallel trimmed_input parallel_commands
      = split_tokens (tokens AMP trimmed_input) parallel_commands 0 :=
  split_loop_eq_tokens (trimmed_input.length + 1) trimmed_input parallel_commands 0
    (Nat.lt_succ_self _)

/-- The split loop stores the non-empty trimmed tokens in order until the
array is full. -/
theorem split_tokens_spec (toks : List CStr) (pc : List CStr) (n : Nat)
    (hpc : pc.length = MAX_ARGS) (hn : n ≤ MAX_ARGS) :
    ∃ pc1 : List CStr, pc1.length = MAX_ARGS ∧
      split_tokens toks pc n = .ok (pc1,
        n + (((toks.map strip).filter (fun t => t ≠ [])).take (MAX_ARGS - n)).length) ∧
      pc1.take (n + (((toks.map strip).filter (fun t => t ≠ [])).take (MAX_ARGS - n)).length)
        = pc.take n ++ ((toks.map strip).filter (fun t => t ≠ [])).take (MAX_ARGS - n) := by
  induction toks generalizing pc n with
  | nil => exact ⟨pc, hpc, by simp [split_tokens], by simp⟩
  | cons tok rest ih =>
    by_cases h1 : n < MAX_ARGS
    · by_cases hb : strip tok = []
      · obtain ⟨pc1, e1, e2, e3⟩ := ih pc n hpc hn
        refine ⟨pc1, e1, ?_, ?_⟩
        · simp only [split_tokens, h1, if_true, trim_eq_strip, (blank_strip tok).mpr hb,
            Bool.not_true, Bool.false_eq_true, if_false, List.map_cons]
          rw [List.filter_cons_of_neg (by simp [hb])]
          exact e2
        · simp only [List.map_cons]
          rw [List.filter_cons_of_neg (by simp [hb])]
          exact e3
      · have hb2 : is_empty_or_whitespace (strip tok) = false := by
          cases hq : is_empty_or_whitespace (strip tok) with
          | false => rfl
          | true => exact absurd ((blank_strip tok).mp hq) hb
        have hlt : n < pc.length := by
          rw [hpc]
          exact h1
        obtain ⟨pc1, e1, e2, e3⟩ := ih (pc.set n (strip tok)) (n + 1)
          (by rw [List.length_set, hpc]) h1
        have hk : MAX_ARGS - n = (MAX_ARGS - (n + 1)) + 1 := by omega
        have hB : (((tok :: rest).map strip).filter (fun t => t ≠ [])).take (MAX_ARGS - n)
            = strip tok ::
              (((rest.map strip).filter (fun t => t ≠ [])).take (MAX_ARGS - (n + 1))) := by
          simp only [List.map_cons]
          rw [List.filter_cons_of_pos (by simp [hb]), hk, List.take_succ_cons]
        refine ⟨pc1, e1, ?_, ?_⟩
        · rw [hB]
          simp only [split_tokens, h1, if_true, trim_eq_strip, hb2, Bool.not_false,
            store_ok pc n (strip tok) hlt, List.length_cons]
          rw [e2]
          congr 2
          omega
        · rw [hB]
          simp only [List.length_cons]
          have e4 : n + ((((rest.map strip).filter (fun t => t ≠ [])).take
              (MAX_ARGS - (n + 1))).length + 1)
              = n + 1 + (((rest.map strip).filter (fun t => t ≠ [])).take
                (MAX_ARGS - (n + 1))).length := by omega
          rw [e4, e3, take_succ_set pc n (strip tok) hlt]
          simp
    · have hz : MAX_ARGS - n = 0 := by omega
      refine ⟨pc, hpc, ?_, ?_⟩
      · simp [split_tokens, h1, hz]
      · simp [hz]

/-! ## The batch in the words of the specification -/

theorem isDelim_AMP : isDelim AMP = fun c => c == '&' := by
  funext c
  cases h : c == '&' <;> simp [isDelim, AMP, List.contains, List.elem, h]

theorem isspace_ne_amp (c : Char) (h : isspace c = true) : (c == '&') = false := by
  cases hc : c == '&' with
  | false => rfl
  | true =>
    have : c = '&' := by simpa using hc
    subst this
    exact absurd h (by decide)

theorem strip_nil : strip [] = [] := rfl

theorem strip_cons_space (c : Char) (s : CStr) (h : isspace c = true) :
    strip (c :: s) = strip s := by
  simp [strip, h]

theorem strip_concat_space (c : Char) (s : CStr) (h : isspace c = true) :
    strip (s ++ [c]) = strip s := by
  by_cases hall : ∀ x ∈ s, isspace x = true
  · rw [(strip_eq_nil_iff s).mpr hall, (strip_eq_nil_iff (s ++ [c])).mpr]
    intro x hx
    rcases List.mem_append.mp hx with h1 | h1
    · exact hall x h1
    · simp only [List.mem_singleton] at h1
      rw [h1]
      exact h
  · have hne : s.dropWhile isspace ≠ [] := by
      intro h0
      apply hall
      have := (strip_eq_nil_iff s).mp (by simp [strip, h0])
      exact this
    unfold strip
    rw [List.dropWhile_append]
    have : (s.dropWhile isspace).isEmpty = false := by
      cases hd : s.dropWhile isspace with
      | nil => exact absurd hd hne
      | cons _ _ => rfl
    simp only [this, Bool.false_eq_true, if_false]
    exact List.rdropWhile_concat_pos _ _ _ h

theorem filter_map_strip_filter (l : List CStr) :
    ((l.filter (fun t => t ≠ [])).map strip).filter (fun t => t ≠ [])
      = (l.map strip).filter (fun t => t ≠ []) := by
  induction l with
  | nil => rfl
  | cons x xs ih =>
    by_cases hx : x = []
    · subst hx
      rw [List.filter_cons_of_neg (by simp), List.map_cons, strip_nil,
        List.filter_cons_of_neg (by simp), ih]
    · rw [List.filter_cons_of_pos (by simp [hx])]
      simp only [List.map_cons]
      by_cases hs : strip x = []
      · rw [List.filter_cons_of_neg (by simp [hs]), List.filter_cons_of_neg (by simp [hs]), ih]
      · rw [List.filter_cons_of_pos (by simp [hs]), List.filter_cons_of_pos (by simp [hs]), ih]

/-- The batch in the specification's words, read off the `strtok_r` tokens. -/
theorem splitParallel_eq_tokens (t : CStr) :
    splitParallel t = ((tokens AMP t).map strip).filter (fun x => x ≠ []) := by
  unfold splitParallel tokens List.splitOn
  rw [filter_map_strip_filter, isDelim_AMP]

theorem map_strip_modifyHead (pre : CStr) (c : Char) (s : CStr)
    (hc : isspace c = true) :
    ((List.splitOnP (fun x => x == '&') (s ++ [c])).modifyHead (fun h => pre ++ h)).map strip
      = ((List.splitOnP (fun x => x == '&') s).modifyHead (fun h => pre ++ h)).map strip := by
  induction s generalizing pre with
  | nil =>
    have : List.splitOnP (fun x => x == '&') [c] = [[c]] := by
      rw [List.splitOnP_cons]
      simp [isspace_ne_amp c hc]
    simp [this, strip_concat_space c pre hc]
  | cons x xs ih =>
    rw [List.cons_append, List.splitOnP_cons, List.splitOnP_cons]
    by_cases hx : (x == '&') = true
    · simp only [hx, if_true, List.modifyHead_cons, List.map_cons]
      have := ih []
      simp only [List.nil_append] at this
      have hid : ∀ l : List CStr, l.modifyHead (fun h => h) = l := by
        intro l
        cases l <;> rfl
      rw [hid, hid] at this
      rw [this]
    · simp only [hx, if_false, Bool.false_eq_true]
      rw [List.modifyHead_modifyHead, List.modifyHead_modifyHead]
      have := ih (pre ++ [x])
      simpa [Function.comp_def] using this

theorem map_strip_splitOn_concat (c : Char) (s : CStr) (hc : isspace c = true) :
    ((s ++ [c]).splitOn '&').map strip = (s.splitOn '&').map strip := by
  have h := map_strip_modifyHead [] c s hc
  have hid : ∀ l : List CStr, l.modifyHead (fun h => [] ++ h) = l := by
    intro l
    cases l <;> rfl
  rw [hid, hid] at h
  exact h

theorem map_strip_splitOn_cons (c : Char) (s : CStr) (hc : isspace c = true) :
    ((c :: s).splitOn '&').map strip = (s.splitOn '&').map strip := by
  unfold List.splitOn
  rw [List.splitOnP_cons]
  simp only [isspace_ne_amp c hc, Bool.false_eq_true, if_false]
  cases h : List.splitOnP (fun x => x == '&') s with
  | nil => rfl
  | cons x xs => simp [strip_cons_space c x hc]

theorem map_strip_splitOn_dropWhile (s : CStr) :
    ((s.dropWhile isspace).splitOn '&').map strip = (s.splitOn '&').map strip := by
  induction s with
  | nil => rfl
  | cons c cs ih =>
    by_cases hc : isspace c = true
    · rw [List.dropWhile_cons_of_pos hc, ih, map_strip_splitOn_cons c cs hc]
    · rw [List.dropWhile_cons_of_neg hc]

theorem map_strip_splitOn_rdropWhile (s : CStr) :
    ((s.rdropWhile isspace).splitOn '&').map strip = (s.splitOn '&').map strip := by
  induction s using List.reverseRecOn with
  | nil => rfl
  | append_singleton l c ih =>
    by_cases hc : isspace c = true
    · rw [List.rdropWhile_concat_pos _ _ _ hc, ih, map_strip_splitOn_concat c l hc]
    · rw [List.rdropWhile_concat_neg _ _ _ hc]

theorem map_strip_splitOn_strip (s : CStr) :
    ((strip s).splitOn '&').map strip = (s.splitOn '&').map strip := by
  have e : strip s = (s.dropWhile isspace).rdropWhile isspace := rfl
  rw [e, map_strip_splitOn_rdropWhile, map_strip_splitOn_dropWhile]

theorem c_string_of_text (l : List Char) (h : ∀ c ∈ l, c ≠ '\x00') : c_string l = l := by
  unfold c_string
  rw [List.takeWhile_eq_self_iff]
  intro c hc
  simpa using h c hc

/-- On a line without NUL the C string in the buffer is the whole line. -/
theorem read_line_text (raw : List Char) (hnul : ∀ c ∈ raw, c ≠ '\x00') :
    read_line raw = trim (if raw.getLast? = some '\n' then raw.dropLast else raw) := by
  unfold read_line
  rw [c_string_of_text]
  intro c hc
  apply hnul
  by_cases h : raw.getLast? = some '\n'
  · rw [if_pos h] at hc
    exact List.dropLast_subset raw hc
  · rw [if_neg h] at hc
    exact hc

theorem map_strip_splitOn_read_line (raw : List Char) (hnul : ∀ c ∈ raw, c ≠ '\x00') :
    ((read_line raw).splitOn '&').map strip = (raw.splitOn '&').map strip := by
  rw [read_line_text raw hnul, trim_eq_strip, map_strip_splitOn_strip]
  by_cases h : raw.getLast? = some '\n'
  · simp only [h, if_true]
    have hraw : raw = raw.dropLast ++ ['\n'] := by
      cases hr : raw with
      | nil => simp [hr] at h
      | cons x xs =>
        rw [hr] at h
        have hne : (x :: xs) ≠ [] := by simp
        rw [List.getLast?_eq_getLast _ hne] at h
        simp only [Option.some.injEq] at h
        rw [← h]
        exact (List.dropLast_append_getLast hne).symm
    conv_rhs => rw [hraw]
    rw [map_strip_splitOn_concat '\n' raw.dropLast (by decide)]
  · simp only [h, if_false]

/-- The batch of the line that `main` holds after removing the newline and
trimming is the batch of the raw line, when the line holds no NUL. -/
theorem splitParallel_read_line (raw : List Char) (hnul : ∀ c ∈ raw, c ≠ '\x00') :
    splitParallel (read_line raw) = splitParallel raw := by
  unfold splitParallel
  rw [map_strip_splitOn_read_line raw hnul]

theorem splitParallel_nil : splitParallel [] = [] := by decide

/-- The split of `main`, for every raw line without NUL: the loop returns, the
count is the length of the first `MAX_ARGS` members of the batch, and these
are the entries stored. -/
theorem split_parallel_spec (raw : List Char) (pc : List CStr) (hpc : pc.length = MAX_ARGS)
    (hnul : ∀ c ∈ raw, c ≠ '\x00') :
    ∃ pc1 : List CStr, pc1.length = MAX_ARGS ∧
      split_parallel (read_line raw) pc
        = .ok (pc1, ((splitParallel raw).take MAX_ARGS).length) ∧
      pc1.take ((splitParallel raw).take MAX_ARGS).length = (splitParallel raw).take MAX_ARGS := by
  obtain ⟨pc1, e1, e2, e3⟩ := split_tokens_spec (tokens AMP (read_line raw)) pc 0 hpc
    (Nat.zero_le _)
  rw [← splitParallel_eq_tokens, splitParallel_read_line raw hnul] at e2 e3
  simp only [Nat.zero_add, Nat.sub_zero, List.take_zero, List.nil_append] at e2 e3
  exact ⟨pc1, e1, by rw [split_parallel_eq_tokens, e2], e3⟩

theorem blank_read_line (raw : List Char) (hnul : ∀ c ∈ raw, c ≠ '\x00')
    (h : is_empty_or_whitespace (read_line raw) = true) : splitParallel raw = [] := by
  have h1 : read_line raw = [] := by
    have e : read_line raw = strip (if raw.getLast? = some '\n' then raw.dropLast else raw) := by
      rw [read_line_text raw hnul, trim_eq_strip]
    rw [e] at h ⊢
    exact (blank_strip _).mp h
  rw [← splitParallel_read_line raw hnul, h1, splitParallel_nil]

theorem length_fresh {α : Type} (n : Nat) (f : Nat → α) : (fresh n f).length = n := by
  simp [fresh]

/-! ## Claims about the parallel split -/

/-- C8, as stated, fails: the line of 65 sub-commands `a`, each followed by
`&`, has a batch of 65 members, none of them blank, and the split loop of
`main` stores 64 of them. -/
theorem split_parallel_counterexample :
    (splitParallel (List.replicate 65 ['a', '&']).flatten).length = 65 ∧
      (split_parallel (read_line (List.replicate 65 ['a', '&']).flatten)
          (List.replicate 64 [])).map (fun r => r.2) = .ok 64 := by
  constructor
  · decide
  · decide

/-- C8, amended: for every input line without a NUL byte the split loop of
`main` returns, and the batch it builds is, in order, the first 64 of the
trimmed forms of the pieces of the line between separators `&` that are not
empty or all whitespace (all of them when they are at most 64); a line on
which `main` skips the loop because it is blank has no such piece; every
element of the batch is non-empty and has no leading or trailing whitespace. -/
theorem split_parallel_batch (raw : List Char) (mem : Uninit)
    (hnul : ∀ c ∈ raw, c ≠ '\x00') :
    ∃ (parallel_commands : List CStr) (parallel_count : Nat),
      split_parallel (read_line raw) (fresh MAX_ARGS mem.parallel_commands)
        = .ok (parallel_commands, parallel_count) ∧
      parallel_commands.take parallel_count = (splitParallel raw).take MAX_ARGS ∧
      ((splitParallel raw).length ≤ MAX_ARGS →
        parallel_commands.take parallel_count = splitParallel raw) ∧
      (is_empty_or_whitespace (read_line raw) = true → splitParallel raw = []) ∧
      ∀ c ∈ parallel_commands.take parallel_count,
        ∃ hne : c ≠ [], isspace (c.head hne) = false ∧ isspace (c.getLast hne) = false := by
  obtain ⟨pc1, _, e2, e3⟩ := split_parallel_spec raw (fresh MAX_ARGS mem.parallel_commands)
    (length_fresh _ _) hnul
  refine ⟨pc1, _, e2, e3, ?_, blank_read_line raw hnul, ?_⟩
  · intro hle
    rw [e3, List.take_of_length_le hle]
  · intro c hc
    rw [e3] at hc
    have hc1 : c ∈ splitParallel raw := List.mem_of_mem_take hc
    unfold splitParallel at hc1
    rw [List.mem_filter, List.mem_map] at hc1
    obtain ⟨⟨p, _, hp⟩, hne⟩ := hc1
    have hne1 : c ≠ [] := by simpa using hne
    subst hp
    refine ⟨hne1, ?_, strip_getLast p hne1⟩
    obtain ⟨x, xs, hcs⟩ := List.exists_cons_of_ne_nil hne1
    have hx := strip_head p x xs hcs
    simp only [hcs, List.head_cons]
    exact hx

theorem split_parallel_batch_witness :
    ∃ (parallel_commands : List CStr) (parallel_count : Nat),
      split_parallel (read_line [' ', 'a', ' ', '&', '&', ' ', 'b', ' ', 'c', '\t', '\n'])
          (fresh MAX_ARGS blank_mem.parallel_commands)
        = .ok (parallel_commands, parallel_count) ∧
      parallel_commands.take parallel_count = [['a'], ['b', ' ', 'c']] := by
  obtain ⟨pc, n, h1, h2, _⟩ := split_parallel_batch
    [' ', 'a', ' ', '&', '&', ' ', 'b', ' ', 'c', '\t', '\n'] blank_mem (by decide)
  exact ⟨pc, n, h1, by rw [h2]; decide⟩

/-! ## Claims about `execute_command` -/

/-- C5, the code at a failing input: with the search path `/bin` and a command
name of 250 characters, the candidate `/bin/` followed by the name is not
executable, and `execute_command` tests and starts another file, the one whose
name is the first 254 characters of that candidate, which is all that
`snprintf` leaves in the buffer `full_path`. -/
theorem execute_command_counterexample :
    cut_os.access (['/', 'b', 'i', 'n'] ++ '/' :: long_name) = false ∧
      execute_command cut_os long_name [some long_name, none] none [['/', 'b', 'i', 'n']]
        = ([.access cut_name, .fork (.exec cut_name [long_name] none) (.created 7),
            .waitpid 7], 0) ∧
      cut_name ≠ ['/', 'b', 'i', 'n'] ++ '/' :: long_name := by
  refine ⟨by decide, by decide, by decide⟩

/-- C6, the code at a failing input: with the search path `/bin`, a command
name of 250 characters and a system whose only executable file is named by the
first 254 characters of `/bin/` followed by that name, no directory yields an
executable candidate directory + "/" + commandName, and `execute_command`
creates a process, reports no error and returns 0; so does the iteration of
the session loop on the line that holds this name. -/
theorem execute_command_found_by_cut :
    (∀ d ∈ [['/', 'b', 'i', 'n']], cut_os.access (d ++ '/' :: long_name) = false) ∧
      (execute_command cut_os long_name [some long_name, none] none
          [['/', 'b', 'i', 'n']]).2 = 0 ∧
      Event.error ∉ (execute_command cut_os long_name [some long_name, none] none
          [['/', 'b', 'i', 'n']]).1 ∧
      Event.fork (.exec cut_name [long_name] none) (.created 7) ∈
        (execute_command cut_os long_name [some long_name, none] none
          [['/', 'b', 'i', 'n']]).1 ∧
      main_iteration cut_os blank_mem (initialize_path []) (.line (long_name ++ ['\n']))
        = .ok ⟨[.prompt, .access cut_name,
            .fork (.exec cut_name [long_name] none) (.created 7), .waitpid 7],
            initialize_path [], false⟩ := by
  refine ⟨by decide, by decide, by decide, by decide, by decide⟩

theorem full_path_of_short (dir command : CStr)
    (h : dir.length + 1 + command.length ≤ MAX_INPUT_SIZE - 1) :
    full_path dir command = dir ++ '/' :: command := by
  unfold full_path
  apply List.take_of_length_le
  simp only [List.length_append, List.length_cons]
  omega

theorem execute_command_skip (os : OS) (command : CStr) (args : Args)
    (output_file : Option CStr) (pre rest : List CStr)
    (hpre : ∀ d ∈ pre, os.access (full_path d command) = false) :
    execute_command os command args output_file (pre ++ rest)
      = (pre.map (fun d => Event.access (full_path d command))
            ++ (execute_command os command args output_file rest).1,
          (execute_command os command args output_file rest).2) := by
  induction pre with
  | nil => rfl
  | cons d ds ih =>
    have hd : os.access (full_path d command) = false := hpre d (List.mem_cons_self _ _)
    have ih1 := ih (fun x hx => hpre x (List.mem_cons_of_mem _ hx))
    rw [List.cons_append]
    simp only [execute_command, hd, Bool.false_eq_true, if_false, List.map_cons]
    rw [ih1]
    rfl

/-- The trace of `execute_command` on a search path in which the string left
in `full_path` is executable for some directory and for none before it: the
tests up to that directory, then one process creation for that string, then
the join or the error report; no later directory is tested.  The string left
in `full_path` is directory + "/" + commandName when that has at most 254
characters. -/
theorem execute_command_first_match (os : OS) (command : CStr) (args : Args)
    (output_file : Option CStr) (pre post : List CStr) (dir : CStr)
    (hpre : ∀ d ∈ pre, os.access (full_path d command) = false)
    (hdir : os.access (full_path dir command) = true) :
    execute_command os command args output_file (pre ++ dir :: post)
      = (pre.map (fun d => Event.access (full_path d command))
            ++ [.access (full_path dir command),
                .fork (.exec (full_path dir command) (argv args) output_file) (os.fork 0),
                match os.fork 0 with
                | .created pid => .waitpid pid
                | .failed => .error],
          match os.fork 0 with
          | .created _ => 0
          | .failed => -1) ∧
      ∀ d ∈ pre ++ dir :: post,
        full_path d command = (d ++ '/' :: command).take 254 ∧
        (d.length + 1 + command.length ≤ 254 → full_path d command = d ++ '/' :: command) := by
  constructor
  · rw [execute_command_skip os command args output_file pre (dir :: post) hpre]
    cases hf : os.fork 0 <;> simp [execute_command, hdir, hf]
  · intro d _
    exact ⟨rfl, fun h => full_path_of_short d command h⟩

theorem execute_command_first_match_witness :
    execute_command ⟨fun p => p == ['b', '/', 'l', 's'], fun _ => .created 7, fun _ _ => none⟩
        ['l', 's'] [some ['l', 's'], none] none [['a'], ['b'], ['c']]
      = ([.access ['a', '/', 'l', 's'], .access ['b', '/', 'l', 's'],
          .fork (.exec ['b', '/', 'l', 's'] [['l', 's']] none) (.created 7), .waitpid 7], 0) :=
  (execute_command_first_match
    ⟨fun p => p == ['b', '/', 'l', 's'], fun _ => .created 7, fun _ _ => none⟩
    ['l', 's'] [some ['l', 's'], none] none [['a']] [['c']] ['b']
    (by decide) (by decide)).1

/-- The trace of `execute_command` on a search path in which the string left
in `full_path` is executable for no directory, and on the empty search path:
the tests, then one error report, and -1 is returned. -/
theorem execute_command_not_found (os : OS) (command : CStr) (args : Args)
    (output_file : Option CStr) (path : List CStr)
    (h : ∀ d ∈ path, os.access (full_path d command) = false) :
    execute_command os command args output_file path
        = (path.map (fun d => Event.access (full_path d command)) ++ [.error], -1) ∧
      execute_command os command args output_file [] = ([.error], -1) := by
  constructor
  · have := execute_command_skip os command args output_file path [] h
    rw [List.append_nil] at this
    rw [this]
    rfl
  · rfl

theorem execute_command_not_found_witness :
    execute_command ⟨fun _ => false, fun _ => .created 7, fun _ _ => none⟩
        ['l', 's'] [some ['l', 's'], none] none [['a'], ['b']]
      = ([.access ['a', '/', 'l', 's'], .access ['b', '/', 'l', 's'], .error], -1) :=
  (execute_command_not_found ⟨fun _ => false, fun _ => .created 7, fun _ _ => none⟩
    ['l', 's'] [some ['l', 's'], none] none [['a'], ['b']] (by decide)).1

/-! ## `parse_command` always returns, with a well-formed argument array -/

theorem take_set_self {α : Type} (a : List α) (i : Nat) (v : α) :
    (a.set i v).take i = a.take i := by
  rw [List.set_take, List.set_eq_of_length_le (by simp)]

theorem parse_exit_ok (n : Nat) (args : Args) (output_file : Option CStr) (pre : List CStr)
    (hlen : args.length = MAX_ARGS) (hn : n ≤ MAX_ARGS - 1) (hpre : args.take n = pre.map some)
    (hpl : pre.length = n) :
    ∃ r : ParseResult, parse_exit n args output_file = .ok r ∧ r.args.length = MAX_ARGS ∧
      r.ret = (pre.length : Int) ∧ r.output_file = output_file ∧
      r.args.take (pre.length + 1) = pre.map some ++ [none] := by
  have hlt : n < args.length := by
    rw [hlen]
    simp only [MAX_ARGS] at hn ⊢
    omega
  refine ⟨⟨(n : Int), args.set n none, output_file⟩, ?_, ?_, ?_, rfl, ?_⟩
  · simp [parse_exit, store_ok args n none hlt]
  · simp [hlen]
  · simp [hpl]
  · simp only [hpl]
    rw [take_succ_set args n none hlt, hpre]

/-- Whatever the tokens, the loop of `parse_command` returns without a fault;
it returns -1, or the number of arguments, at most 63, with the arguments
stored in order and NULL after them. -/
theorem parse_tokens_ok (k : Nat) : ∀ (toks : List CStr), toks.length ≤ k →
    ∀ (n : Nat) (redirection_found : Bool) (args : Args) (output_file : Option CStr)
      (pre : List CStr), args.length = MAX_ARGS → n ≤ MAX_ARGS - 1 →
      args.take n = pre.map some → pre.length = n →
    ∃ r : ParseResult, parse_tokens toks n redirection_found args output_file = .ok r ∧
      r.args.length = MAX_ARGS ∧
      (r.ret = -1 ∨ ∃ as : List CStr, r.ret = ((pre ++ as).length : Int) ∧
        (pre ++ as).length ≤ MAX_ARGS - 1 ∧
        r.args.take ((pre ++ as).length + 1) = (pre ++ as).map some ++ [none]) := by
  induction k with
  | zero =>
    intro toks hk n redir args out pre hlen hn hpre hpl
    have : toks = [] := List.length_eq_zero.mp (Nat.le_zero.mp hk)
    subst this
    obtain ⟨r, e1, e2, e3, _, e5⟩ := parse_exit_ok n args out pre hlen hn hpre hpl
    exact ⟨r, e1, e2, Or.inr ⟨[], by simpa using e3, by simpa [hpl] using hn,
      by simpa using e5⟩⟩
  | succ k ih =>
    intro toks hk n redir args out pre hlen hn hpre hpl
    cases toks with
    | nil =>
      obtain ⟨r, e1, e2, e3, _, e5⟩ := parse_exit_ok n args out pre hlen hn hpre hpl
      exact ⟨r, e1, e2, Or.inr ⟨[], by simpa using e3, by simpa [hpl] using hn,
        by simpa using e5⟩⟩
    | cons tok rest =>
      simp only [List.length_cons] at hk
      rw [parse_tokens_cons]
      by_cases h1 : n < MAX_ARGS - 1
      · simp only [h1, if_true]
        by_cases h2 : tok = MARKER
        · simp only [h2, if_true]
          by_cases h3 : (redir || n == 0) = true
          · simp only [h3, if_true]
            exact ⟨⟨-1, args, out⟩, rfl, hlen, Or.inl rfl⟩
          · simp only [h3, if_false]
            cases rest with
            | nil => exact ⟨⟨-1, args, out⟩, rfl, hlen, Or.inl rfl⟩
            | cons file rest1 =>
              simp only [List.length_cons] at hk
              exact ih rest1 (by omega) n true args (some file) pre hlen hn hpre hpl
        · simp only [h2, if_false]
          cases redir with
          | true => exact ⟨⟨-1, args, out⟩, rfl, hlen, Or.inl rfl⟩
          | false =>
            have hlt : n < args.length := by
              rw [hlen]
              simp only [MAX_ARGS] at h1 ⊢
              omega
            simp only [Bool.false_eq_true, if_false, store_ok args n (some tok) hlt]
            obtain ⟨r, e1, e2, e3⟩ := ih rest (by omega) (n + 1) false (args.set n (some tok)) out
              (pre ++ [tok]) (by rw [List.length_set, hlen]) (by omega)
              (by rw [take_succ_set args n (some tok) hlt, hpre]; simp) (by simp [hpl])
            refine ⟨r, e1, e2, ?_⟩
            rcases e3 with e3 | ⟨as, e4, e5, e6⟩
            · exact Or.inl e3
            · refine Or.inr ⟨tok :: as, ?_, ?_, ?_⟩
              · simpa using e4
              · simpa using e5
              · simpa using e6
      · simp only [h1, if_false]
        obtain ⟨r, e1, e2, e3, _, e5⟩ := parse_exit_ok n args out pre hlen hn hpre hpl
        exact ⟨r, e1, e2, Or.inr ⟨[], by simpa using e3, by simpa [hpl] using hn,
          by simpa using e5⟩⟩

/-- The function `parse_command` returns on every input, with no write outside
the array. -/
theorem parse_command_ok (input : CStr) (args : Args) (hlen : args.length = MAX_ARGS) :
    ∃ r : ParseResult, parse_command input args = .ok r ∧ r.args.length = MAX_ARGS ∧
      (r.ret = -1 ∨ ∃ as : List CStr, r.ret = (as.length : Int) ∧ as.length ≤ MAX_ARGS - 1 ∧
        r.args.take (as.length + 1) = as.map some ++ [none]) := by
  rw [parse_command_eq_tokens]
  obtain ⟨r, e1, e2, e3⟩ := parse_tokens_ok (tokens WS input).length (tokens WS input)
    (Nat.le_refl _) 0 false args none [] hlen (Nat.zero_le _) (by simp) rfl
  refine ⟨r, e1, e2, ?_⟩
  rcases e3 with e3 | ⟨as, e4, e5, e6⟩
  · exact Or.inl e3
  · exact Or.inr ⟨as, by simpa using e4, by simpa using e5, by simpa using e6⟩

/-! ## The tokenizer of `execute_parallel_commands` over the token list -/

theorem batch_tokens_cons (tok : CStr) (rest : List CStr) (arg_count : Nat) (args : Args)
    (output_file : Option CStr) :
    batch_tokens (tok :: rest) arg_count args output_file =
      if arg_count < MAX_ARGS - 1 then
        if tok = MARKER then
          match rest, output_file with
          | file :: rest1, none => batch_tokens rest1 arg_count args (some file)
          | _, _ => .ok none
        else
          match store args arg_count (some tok) with
          | .error e => .error e
          | .ok args1 => batch_tokens rest (arg_count + 1) args1 output_file
      else batch_exit arg_count args output_file := by
  cases rest <;> cases output_file <;> simp only [batch_tokens]

theorem batch_loop_eq_tokens (fuel : Nat) (cur : CStr) (arg_count : Nat) (args : Args)
    (output_file : Option CStr) (hfuel : cur.length < fuel) :
    batch_loop fuel (strtok WS cur).1 (strtok WS cur).2 arg_count args output_file
      = batch_tokens (tokens WS cur) arg_count args output_file := by
  induction fuel generalizing cur arg_count args output_file with
  | zero => omega
  | succ fuel ih =>
    cases h : strtok WS cur with
    | mk token cur1 =>
      cases token with
      | none =>
        rw [strtok_none WS cur cur1 h]
        rfl
      | some tok =>
        have hlt := strtok_length WS cur tok cur1 h
        rw [strtok_some WS cur tok cur1 h, batch_tokens_cons]
        simp only [batch_loop]
        by_cases h1 : arg_count < MAX_ARGS - 1
        · simp only [h1, if_true]
          by_cases h2 : tok = MARKER
          · simp only [h2, if_true]
            cases h4 : strtok WS cur1 with
            | mk token2 cur2 =>
              cases token2 with
              | none =>
                rw [strtok_none WS cur1 cur2 h4]
              | some file =>
                have hlt2 := strtok_length WS cur1 file cur2 h4
                rw [strtok_some WS cur1 file cur2 h4]
                cases output_file with
                | none => exact ih cur2 arg_count args (some file) (by omega)
                | some _ => rfl
          · simp only [h2, if_false]
            cases store args arg_count (some tok) with
            | error e => rfl
            | ok args1 => exact ih cur1 (arg_count + 1) args1 output_file (by omega)
        · simp only [h1, if_false]

theorem batch_tokenize_eq_tokens (command : CStr) (args : Args) :
    batch_tokenize command args = batch_tokens (tokens WS command) 0 args none :=
  batch_loop_eq_tokens (command.length + 1) command 0 args none (Nat.lt_succ_self _)

theorem batch_exit_eq (n : Nat) (args : Args) (output_file : Option CStr) :
    batch_exit n args output_file = (parse_exit n args output_file).map some := by
  unfold batch_exit parse_exit
  cases store args n none <;> rfl

/-- Whatever the tokens, the tokenizer of `execute_parallel_commands` leaves
without a fault: through the error return, or with the number of arguments, at
most 63, the arguments stored in order and NULL after them. -/
theorem batch_tokens_ok (k : Nat) : ∀ (toks : List CStr), toks.length ≤ k →
    ∀ (n : Nat) (args : Args) (output_file : Option CStr) (pre : List CStr),
      args.length = MAX_ARGS → n ≤ MAX_ARGS - 1 → args.take n = pre.map some →
      pre.length = n →
    batch_tokens toks n args output_file = .ok none ∨
      ∃ (r : ParseResult) (as : List CStr),
        batch_tokens toks n args output_file = .ok (some r) ∧ r.args.length = MAX_ARGS ∧
        r.ret = ((pre ++ as).length : Int) ∧ (pre ++ as).length ≤ MAX_ARGS - 1 ∧
        r.args.take ((pre ++ as).length + 1) = (pre ++ as).map some ++ [none] := by
  have hexit : ∀ (n : Nat) (args : Args) (output_file : Option CStr) (pre : List CStr),
      args.length = MAX_ARGS → n ≤ MAX_ARGS - 1 → args.take n = pre.map some →
      pre.length = n →
      batch_exit n args output_file = .ok none ∨
      ∃ (r : ParseResult) (as : List CStr),
        batch_exit n args output_file = .ok (some r) ∧ r.args.length = MAX_ARGS ∧
        r.ret = ((pre ++ as).length : Int) ∧ (pre ++ as).length ≤ MAX_ARGS - 1 ∧
        r.args.take ((pre ++ as).length + 1) = (pre ++ as).map some ++ [none] := by
    intro n args out pre hlen hn hpre hpl
    obtain ⟨r, e1, e2, e3, _, e5⟩ := parse_exit_ok n args out pre hlen hn hpre hpl
    refine Or.inr ⟨r, [], ?_, e2, by simpa using e3, by simpa [hpl] using hn, by simpa using e5⟩
    rw [batch_exit_eq, e1]
    rfl
  induction k with
  | zero =>
    intro toks hk n args out pre hlen hn hpre hpl
    have : toks = [] := List.length_eq_zero.mp (Nat.le_zero.mp hk)
    subst this
    exact hexit n args out pre hlen hn hpre hpl
  | succ k ih =>
    intro toks hk n args out pre hlen hn hpre hpl
    cases toks with
    | nil => exact hexit n args out pre hlen hn hpre hpl
    | cons tok rest =>
      simp only [List.length_cons] at hk
      rw [batch_tokens_cons]
      by_cases h1 : n < MAX_ARGS - 1
      · simp only [h1, if_true]
        by_cases h2 : tok = MARKER
        · simp only [h2, if_true]
          cases rest with
          | nil => exact Or.inl rfl
          | cons file rest1 =>
            cases out with
            | some _ => exact Or.inl rfl
            | none =>
              simp only [List.length_cons] at hk
              exact ih rest1 (by omega) n args (some file) pre hlen hn hpre hpl
        · simp only [h2, if_false]
          have hlt : n < args.length := by
            rw [hlen]
            simp only [MAX_ARGS] at h1 ⊢
            omega
          simp only [store_ok args n (some tok) hlt]
          rcases ih rest (by omega) (n + 1) (args.set n (some tok)) out (pre ++ [tok])
            (by rw [List.length_set, hlen]) (by omega)
            (by rw [take_succ_set args n (some tok) hlt, hpre]; simp) (by simp [hpl])
            with e | ⟨r, as, e1, e2, e3, e4, e5⟩
          · exact Or.inl e
          · exact Or.inr ⟨r, tok :: as, e1, e2, by simpa using e3, by simpa using e4,
              by simpa using e5⟩
      · simp only [h1, if_false]
        exact hexit n args out pre hlen hn hpre hpl

theorem batch_tokenize_ok (command : CStr) (args : Args) (hlen : args.length = MAX_ARGS) :
    batch_tokenize command args = .ok none ∨
      ∃ (r : ParseResult) (as : List CStr),
        batch_tokenize command args = .ok (some r) ∧ r.args.length = MAX_ARGS ∧
        r.ret = (as.length : Int) ∧ as.length ≤ MAX_ARGS - 1 ∧
        r.args.take (as.length + 1) = as.map some ++ [none] := by
  rw [batch_tokenize_eq_tokens]
  rcases batch_tokens_ok (tokens WS command).length (tokens WS command) (Nat.le_refl _) 0 args
    none [] hlen (Nat.zero_le _) (by simp) rfl with e | ⟨r, as, e1, e2, e3, e4, e5⟩
  · exact Or.inl e
  · exact Or.inr ⟨r, as, e1, e2, by simpa using e3, by simpa using e4, by simpa using e5⟩

/-! ## `execute_parallel_commands` always returns -/

theorem load_ok {α : Type} (a : List α) (i : Nat) (h : i < a.length) :
    load a i = .ok (a[i]) := by
  simp [load, List.get?_eq_getElem?, List.getElem?_eq_getElem h]

theorem load_zero_of_take (args : Args) (a : CStr) (as : List CStr) (k : Nat)
    (h : args.take (k + 1) = (a :: as).map some ++ [none]) : load args 0 = .ok (some a) := by
  cases args with
  | nil => simp at h
  | cons x xs =>
    simp only [List.take_succ_cons, List.map_cons, List.cons_append, List.cons.injEq] at h
    simp [load, h.1]

theorem launch_loop_ok (os : OS) (mem : Uninit) (commands : List CStr) (remaining : Nat) :
    ∀ (i : Nat) (pids : List Int), i + remaining ≤ commands.length →
      i + remaining ≤ pids.length →
    ∃ (events : List Event) (result : Option (List Int)),
      launch_loop os mem commands remaining i pids = .ok (events, result) ∧
      (∀ e ∈ events, is_batch_event e = true) ∧
      ∀ p, result = some p → p.length = pids.length := by
  induction remaining with
  | zero =>
    intro i pids _ _
    exact ⟨[], some pids, rfl, by simp, by
      intro p hp
      simp only [Option.some.injEq] at hp
      rw [hp]⟩
  | succ remaining ih =>
    intro i pids hc hp
    simp only [launch_loop]
    rw [load_ok commands i (by omega)]
    simp only
    rcases batch_tokenize_ok commands[i] (fresh MAX_ARGS mem.args) (length_fresh _ _)
      with e | ⟨r, as, e1, _, e3, _, e5⟩
    · rw [e]
      exact ⟨[.error], none, rfl, by simp [is_batch_event], by simp⟩
    · rw [e1]
      simp only
      by_cases h0 : r.ret = 0
      · simp only [h0, if_true]
        exact ih (i + 1) pids (by omega) (by omega)
      · simp only [h0, if_false]
        cases as with
        | nil => simp [e3] at h0
        | cons a as1 =>
          rw [load_zero_of_take r.args a as1 _ e5]
          simp only
          cases hf : os.fork i with
          | failed =>
            exact ⟨_, none, rfl, by simp [is_batch_event], by simp⟩
          | created pid =>
            simp only
            rw [store_ok pids i pid (by omega)]
            simp only
            obtain ⟨events, result, h1, h2, h3⟩ := ih (i + 1) (pids.set i pid) (by omega)
              (by rw [List.length_set]; omega)
            rw [h1]
            refine ⟨_, result, rfl, ?_, ?_⟩
            · intro e he
              rcases List.mem_cons.mp he with h | h
              · rw [h]
                rfl
              · exact h2 e h
            · intro p hp1
              rw [h3 p hp1, List.length_set]

theorem join_loop_ok (pids : List Int) (remaining : Nat) :
    ∀ (i : Nat), i + remaining ≤ pids.length →
    ∃ events : List Event, join_loop pids remaining i = .ok events ∧
      ∀ e ∈ events, is_batch_event e = true := by
  induction remaining with
  | zero =>
    intro i _
    exact ⟨[], rfl, by simp⟩
  | succ remaining ih =>
    intro i hi
    obtain ⟨events, h1, h2⟩ := ih (i + 1) (by omega)
    simp only [join_loop]
    rw [load_ok pids i (by omega), h1]
    refine ⟨_, rfl, ?_⟩
    intro e he
    rcases List.mem_cons.mp he with h | h
    · rw [h]
      rfl
    · exact h2 e h

/-- The function `execute_parallel_commands` returns for every batch of at
most as many members as its array holds, and every event of its trace is a
process creation for an external command, an error report or a join. -/
theorem execute_parallel_commands_ok (os : OS) (mem : Uninit) (commands : List CStr)
    (command_count : Nat) (h : command_count ≤ commands.length) :
    ∃ (events : List Event) (ret : Int),
      execute_parallel_commands os mem commands command_count = .ok (events, ret) ∧
      ∀ e ∈ events, is_batch_event e = true := by
  obtain ⟨events, result, h1, h2, h3⟩ := launch_loop_ok os mem commands command_count 0
    (fresh command_count mem.pids) (by omega) (by rw [length_fresh]; omega)
  unfold execute_parallel_commands
  rw [h1]
  cases result with
  | none => exact ⟨events, -1, rfl, h2⟩
  | some pids =>
    have hl := h3 pids rfl
    rw [length_fresh] at hl
    obtain ⟨joins, j1, j2⟩ := join_loop_ok pids command_count 0 (by omega)
    simp only
    rw [j1]
    refine ⟨events ++ joins, 0, rfl, ?_⟩
    intro e he
    rcases List.mem_append.mp he with h | h
    · exact h2 e h
    · exact j2 e h

/-! ## One iteration of the session loop, by the size of the batch -/

theorem take_length_eq_zero {α : Type} (l : List α) (h : (l.take MAX_ARGS).length = 0) :
    l = [] := by
  cases l with
  | nil => rfl
  | cons x xs => simp [MAX_ARGS] at h

theorem not_blank_of_batch (raw : List Char) (hnul : ∀ c ∈ raw, c ≠ '\x00')
    (h : splitParallel raw ≠ []) : is_empty_or_whitespace (read_line raw) = false := by
  cases hb : is_empty_or_whitespace (read_line raw) with
  | false => rfl
  | true => exact absurd (blank_read_line raw hnul hb) h

/-- An empty batch: the iteration does nothing. -/
theorem main_iteration_empty (os : OS) (mem : Uninit) (sh : Shell) (raw : List Char)
    (hnul : ∀ c ∈ raw, c ≠ '\x00') (h : splitParallel raw = []) :
    main_iteration os mem sh (.line raw) = .ok ⟨[.prompt], sh, false⟩ := by
  unfold main_iteration
  by_cases hb : is_empty_or_whitespace (read_line raw) = true
  · simp only [hb, if_true]
  · obtain ⟨pc1, _, e2, _⟩ := split_parallel_spec raw (fresh MAX_ARGS mem.parallel_commands)
      (length_fresh _ _) hnul
    simp only [hb, if_false, Bool.false_eq_true, e2, h, List.take_nil, List.length_nil, if_true]

/-- A batch of two or more members goes to `execute_parallel_commands`. -/
theorem main_iteration_batch (os : OS) (mem : Uninit) (sh : Shell) (raw : List Char)
    (hnul : ∀ c ∈ raw, c ≠ '\x00') (h : 2 ≤ (splitParallel raw).length) :
    ∃ events : List Event,
      main_iteration os mem sh (.line raw) = .ok ⟨.prompt :: events, sh, false⟩ ∧
      ∀ e ∈ events, is_batch_event e = true := by
  have hne : splitParallel raw ≠ [] := by
    intro h0
    rw [h0] at h
    simp at h
  obtain ⟨pc1, e1, e2, _⟩ := split_parallel_spec raw (fresh MAX_ARGS mem.parallel_commands)
    (length_fresh _ _) hnul
  have hcount : 2 ≤ ((splitParallel raw).take MAX_ARGS).length := by
    rw [List.length_take]
    simp only [MAX_ARGS]
    omega
  have hle : ((splitParallel raw).take MAX_ARGS).length ≤ pc1.length := by
    rw [e1, List.length_take]
    omega
  obtain ⟨events, ret, x1, x2⟩ := execute_parallel_commands_ok os mem pc1 _ hle
  refine ⟨events, ?_, x2⟩
  unfold main_iteration
  simp only [not_blank_of_batch raw hnul hne, Bool.false_eq_true, if_false, e2]
  have h0 : ¬ ((splitParallel raw).take MAX_ARGS).length = 0 := by omega
  have h1 : ((splitParallel raw).take MAX_ARGS).length > 1 := by omega
  simp only [h0, if_false, h1, if_true, x1]

/-- A batch of one member goes to the single-command path. -/
theorem main_iteration_single (os : OS) (mem : Uninit) (sh : Shell) (raw : List Char)
    (command : CStr) (hnul : ∀ c ∈ raw, c ≠ '\x00') (h : splitParallel raw = [command]) :
    main_iteration os mem sh (.line raw) = run_single os mem sh command := by
  have hne : splitParallel raw ≠ [] := by
    rw [h]
    simp
  obtain ⟨pc1, _, e2, e3⟩ := split_parallel_spec raw (fresh MAX_ARGS mem.parallel_commands)
    (length_fresh _ _) hnul
  rw [h] at e2 e3
  have ht : ([command] : List CStr).take MAX_ARGS = [command] := by simp [MAX_ARGS]
  rw [ht] at e2 e3
  simp only [List.length_singleton] at e2 e3
  have hload : load pc1 0 = .ok command := by
    cases pc1 with
    | nil => simp at e3
    | cons x xs =>
      simp only [List.take_succ_cons, List.take_zero, List.cons.injEq, and_true] at e3
      simp [load, e3]
  unfold main_iteration
  simp only [not_blank_of_batch raw hnul hne, Bool.false_eq_true, if_false, e2, Nat.one_ne_zero,
    gt_iff_lt, Nat.lt_irrefl, hload]

/-! ## The `path` built-in -/

theorem load_of_take (args : Args) (as : List CStr) (i : Nat) (hi : i < as.length)
    (h : args.take as.length = as.map some) : load args i = .ok (some as[i]) := by
  have h1 : (args.take as.length)[i]? = some (some as[i]) := by
    rw [h]
    simp [List.getElem?_eq_getElem hi]
  rw [List.getElem?_take_of_lt hi] at h1
  simp [load, List.get?_eq_getElem?, h1]

theorem path_copy_spec (args : Args) (as : List CStr)
    (h : args.take as.length = as.map some) :
    ∀ (k i : Nat), i + k = as.length → path_copy args k i = .ok (as.drop i) := by
  intro k
  induction k with
  | zero =>
    intro i hi
    simp only [Nat.add_zero] at hi
    rw [hi, List.drop_length]
    rfl
  | succ k ih =>
    intro i hi
    have hlt : i < as.length := by omega
    simp only [path_copy]
    rw [load_of_take args as i hlt h, ih (i + 1) (by omega)]
    simp only
    rw [List.drop_eq_getElem_cons hlt]

theorem take_of_take_succ (args : Args) (as : List CStr)
    (h : args.take (as.length + 1) = as.map some ++ [none]) :
    args.take as.length = as.map some := by
  have h1 : (args.take (as.length + 1)).take as.length = (as.map some ++ [none]).take as.length := by
    rw [h]
  rw [List.take_take, Nat.min_eq_left (Nat.le_succ _)] at h1
  rw [h1, List.take_left']
  simp

/-! ## Tokens of a trimmed line -/

theorem tokens_of_all_delim (delim : CStr) (s : CStr) (h : ∀ c ∈ s, isDelim delim c = true) :
    tokens delim s = [] := by
  induction s with
  | nil => exact tokens_nil delim
  | cons c cs ih =>
    rw [tokens_cons_delim delim c cs (h c (List.mem_cons_self _ _))]
    exact ih (fun x hx => h x (List.mem_cons_of_mem _ hx))

theorem splitOnP_concat_sep (p : Char → Bool) (s : CStr) (c : Char) (hc : p c = true) :
    (s ++ [c]).splitOnP p = s.splitOnP p ++ [[]] := by
  induction s with
  | nil => simp [List.splitOnP_cons, hc]
  | cons x xs ih =>
    rw [List.cons_append, List.splitOnP_cons, List.splitOnP_cons, ih]
    by_cases hx : p x = true
    · simp [hx]
    · simp only [hx, if_false, Bool.false_eq_true]
      cases hs : List.splitOnP p xs with
      | nil => exact absurd hs (List.splitOnP_ne_nil p xs)
      | cons y ys => rfl

theorem tokens_concat_delim (delim : CStr) (s : CStr) (c : Char) (hc : isDelim delim c = true) :
    tokens delim (s ++ [c]) = tokens delim s := by
  unfold tokens
  rw [splitOnP_concat_sep (isDelim delim) s c hc, List.filter_append]
  simp

theorem tokens_dropWhile_isspace (s : CStr)
    (h : ∀ c ∈ s, isspace c = true → isDelim WS c = true) :
    tokens WS (s.dropWhile isspace) = tokens WS s := by
  induction s with
  | nil => rfl
  | cons c cs ih =>
    by_cases hc : isspace c = true
    · rw [List.dropWhile_cons_of_pos hc, ih (fun x hx => h x (List.mem_cons_of_mem _ hx)),
        tokens_cons_delim WS c cs (h c (List.mem_cons_self _ _) hc)]
    · rw [List.dropWhile_cons_of_neg hc]

theorem tokens_rdropWhile_isspace (s : CStr)
    (h : ∀ c ∈ s, isspace c = true → isDelim WS c = true) :
    tokens WS (s.rdropWhile isspace) = tokens WS s := by
  induction s using List.reverseRecOn with
  | nil => rfl
  | append_singleton l c ih =>
    by_cases hc : isspace c = true
    · rw [List.rdropWhile_concat_pos _ _ _ hc,
        ih (fun x hx => h x (List.mem_append_left _ hx)),
        tokens_concat_delim WS l c (h c (by simp) hc)]
    · rw [List.rdropWhile_concat_neg _ _ _ hc]

/-- Trimming a line whose only whitespace is space and tab keeps its tokens. -/
theorem tokens_strip (s : CStr) (h : ∀ c ∈ s, isspace c = true → isDelim WS c = true) :
    tokens WS (strip s) = tokens WS s := by
  have e : strip s = (s.dropWhile isspace).rdropWhile isspace := rfl
  rw [e, tokens_rdropWhile_isspace, tokens_dropWhile_isspace s h]
  intro c hc
  exact h c ((List.dropWhile_sublist _).subset hc)

theorem isDelim_WS_isspace (c : Char) (h : isDelim WS c = true) : isspace c = true := by
  simp only [isDelim, WS, List.contains_cons, List.contains_nil, Bool.or_false,
    Bool.or_eq_true, beq_iff_eq] at h
  rcases h with h | h <;> subst h <;> decide

/-- The batch of a line without `&` that holds a token and has no whitespace
other than space and tab is the trimmed line, and its tokens are those of the
line; the same holds with the newline that `getline` leaves at its end. -/
theorem splitParallel_of_single (raw line : CStr) (hraw : raw = line ∨ raw = line ++ ['\n'])
    (hchars : ∀ c ∈ line, c ≠ '&' ∧ (isspace c = true → isDelim WS c = true))
    (hne : tokens WS line ≠ []) :
    splitParallel raw = [strip line] ∧ tokens WS (strip line) = tokens WS line := by
  have h1 : splitParallel raw = splitParallel line := by
    rcases hraw with h | h
    · rw [h]
    · rw [h]
      unfold splitParallel
      rw [map_strip_splitOn_concat '\n' line (by decide)]
  have h2 : line.splitOn '&' = [line] := by
    unfold List.splitOn
    apply List.splitOnP_eq_single
    intro x hx
    simpa using (hchars x hx).1
  have h3 : strip line ≠ [] := by
    intro h0
    apply hne
    apply tokens_of_all_delim
    intro c hc
    exact (hchars c hc).2 ((strip_eq_nil_iff line).mp h0 c hc)
  refine ⟨?_, tokens_strip line (fun c hc => (hchars c hc).2)⟩
  rw [h1]
  unfold splitParallel
  rw [h2]
  simp [h3]

theorem run_single_path (os : OS) (mem : Uninit) (sh : Shell) (command : CStr)
    (ds : List CStr) (htok : tokens WS command = PATH :: ds) (hno : ∀ d ∈ ds, d ≠ MARKER)
    (hlen : ds.length ≤ 62) :
    run_single os mem sh command = .ok ⟨[.prompt], ⟨ds, sh.cwd⟩, false⟩ := by
  have hno1 : ∀ a ∈ PATH :: ds, a ≠ MARKER := by
    intro a ha
    rcases List.mem_cons.mp ha with h | h
    · rw [h]
      decide
    · exact hno a h
  obtain ⟨args1, h1, _, h3⟩ := parse_tokens_of_form (PATH :: ds) none
    (fresh MAX_ARGS mem.args) (length_fresh _ _) hno1 (by simp)
    (by simp only [redirection, List.append_nil, List.length_cons]; omega)
  simp only [redirection, List.append_nil] at h1
  unfold run_single
  rw [parse_command_eq_tokens, htok, h1]
  have hr1 : ¬ (((PATH :: ds).length : Nat) : Int) = -1 := by omega
  have hr0 : ¬ (((PATH :: ds).length : Nat) : Int) = 0 := by
    simp only [List.length_cons]
    omega
  simp only [hr1, hr0, if_false]
  rw [load_zero_of_take args1 PATH ds _ h3]
  simp only [dispatch]
  have e1 : ¬ PATH = EXIT := by decide
  have e2 : ¬ PATH = CD := by decide
  simp only [e1, e2, if_false, if_true]
  have hk : (((PATH :: ds).length : Nat) : Int).toNat - 1 = ds.length := by
    simp
  rw [hk, path_copy_spec args1 (PATH :: ds) (take_of_take_succ args1 (PATH :: ds) h3)
    ds.length 1 (by simp [Nat.add_comm])]
  rfl

/-! ## Claims about the session loop -/

/-- C4, as stated, fails: after the line `path` followed by 63 directories
`a` the search path holds 62 entries. -/
theorem path_builtin_counterexample :
    tokens WS (PATH ++ (List.replicate 63 [' ', 'a']).flatten)
        = PATH :: List.replicate 63 ['a'] ∧
      (main_iteration bare_os blank_mem (initialize_path [])
          (.line (PATH ++ (List.replicate 63 [' ', 'a']).flatten))).map
        (fun st => st.shell.path) = .ok (List.replicate 62 ['a']) := by
  constructor
  · decide
  · decide

/-- C4, amended: for every shell state and every single-command line
`path d1 ... dn` with at most 62 directories, that is a line without a NUL
byte and without `&`, with no whitespace other than spaces and tabs, whose
tokens are `path`, `d1`, ..., `dn`, none of the `di` being the marker `>`,
read with or without its final newline: the iteration leaves the search path
`[d1, ..., dn]` whatever it was before, the working directory unchanged, and
continues; run again from the resulting state, the same line gives the same
result; with no directory the search path is left empty. -/
theorem path_builtin (os : OS) (mem : Uninit) (sh : Shell) (raw line : List Char)
    (ds : List CStr) (hraw : raw = line ∨ raw = line ++ ['\n'])
    (hchars : ∀ c ∈ line,
      c ≠ '\x00' ∧ c ≠ '&' ∧ (isspace c = true → isDelim WS c = true))
    (htok : tokens WS line = PATH :: ds) (hno : ∀ d ∈ ds, d ≠ MARKER)
    (hlen : ds.length ≤ 62) :
    ∃ st : Step, main_iteration os mem sh (.line raw) = .ok st ∧
      st.shell.path = ds ∧ st.shell.cwd = sh.cwd ∧ st.stop = false ∧
      main_iteration os mem st.shell (.line raw) = .ok st ∧
      (ds = [] → st.shell.path = []) := by
  have hnul : ∀ c ∈ raw, c ≠ '\x00' := by
    intro c hc
    rcases hraw with h | h
    · rw [h] at hc
      exact (hchars c hc).1
    · rw [h] at hc
      rcases List.mem_append.mp hc with h1 | h1
      · exact (hchars c h1).1
      · simp only [List.mem_singleton] at h1
        rw [h1]
        decide
  obtain ⟨hb, ht⟩ := splitParallel_of_single raw line hraw
    (fun c hc => (hchars c hc).2) (by rw [htok]; simp)
  rw [htok] at ht
  refine ⟨⟨[.prompt], ⟨ds, sh.cwd⟩, false⟩, ?_, rfl, rfl, rfl, ?_, fun h => h⟩
  · rw [main_iteration_single os mem sh raw (strip line) hnul hb]
    exact run_single_path os mem sh (strip line) ds ht hno hlen
  · rw [main_iteration_single os mem _ raw (strip line) hnul hb]
    exact run_single_path os mem _ (strip line) ds ht hno hlen

theorem path_builtin_witness :
    ∃ st : Step,
      main_iteration bare_os blank_mem (initialize_path [])
          (.line ['p', 'a', 't', 'h', ' ', 'x', ' ', 'y', '\n']) = .ok st ∧
      st.shell.path = [['x'], ['y']] ∧ st.shell.cwd = [] ∧ st.stop = false ∧
      main_iteration bare_os blank_mem st.shell
          (.line ['p', 'a', 't', 'h', ' ', 'x', ' ', 'y', '\n']) = .ok st ∧
      (([['x'], ['y']] : List CStr) = [] → st.shell.path = []) :=
  path_builtin bare_os blank_mem (initialize_path [])
    ['p', 'a', 't', 'h', ' ', 'x', ' ', 'y', '\n'] ['p', 'a', 't', 'h', ' ', 'x', ' ', 'y']
    [['x'], ['y']] (Or.inr rfl) (by decide) (by decide) (by decide) (by decide)

theorem dispatch_spec (os : OS) (sh : Shell) (r : ParseResult) (arg0 : CStr)
    (rest : List CStr) (hret : r.ret = ((arg0 :: rest).length : Int))
    (hargs : r.args.take ((arg0 :: rest).length + 1) = (arg0 :: rest).map some ++ [none]) :
    ∃ st : Step, dispatch os sh arg0 r = .ok st ∧
      (st.stop = true ↔ arg0 = EXIT ∧ r.ret = 1) ∧
      (st.stop = true → st.events = [.prompt]) ∧
      (arg0 = EXIT → 1 < r.ret → st = ⟨[.prompt, .error], sh, false⟩) := by
  have htake := take_of_take_succ r.args (arg0 :: rest) hargs
  have hpos : (1 : Int) ≤ r.ret := by
    rw [hret]
    simp only [List.length_cons]
    omega
  unfold dispatch
  by_cases h1 : arg0 = EXIT
  · simp only [h1, if_true]
    by_cases h2 : r.ret > 1
    · simp only [h2, if_true]
      refine ⟨_, rfl, ?_, by simp, fun _ _ => rfl⟩
      constructor
      · intro h
        simp at h
      · intro h
        omega
    · simp only [h2, if_false]
      refine ⟨_, rfl, ?_, fun _ => rfl, fun _ h => h.elim⟩
      constructor
      · intro _
        exact ⟨trivial, by omega⟩
      · intro _
        rfl
  · simp only [h1, if_false, false_and, iff_false, Bool.not_eq_true, false_implies, and_true]
    by_cases h2 : arg0 = CD
    · simp only [h2, if_true]
      by_cases h3 : r.ret ≠ 2
      · rw [if_pos h3]
        exact ⟨_, rfl, rfl, by simp⟩
      · rw [if_neg h3]
        have h4 : rest.length = 1 := by
          simp only [ne_eq, Decidable.not_not] at h3
          rw [h3] at hret
          simp only [List.length_cons] at hret
          omega
        rw [load_of_take r.args (arg0 :: rest) 1 (by simp [h4]) htake]
        simp only
        cases os.chdir sh.cwd (arg0 :: rest)[1] with
        | none => exact ⟨_, rfl, rfl, by simp⟩
        | some cwd1 => exact ⟨_, rfl, rfl, by simp⟩
    · simp only [h2, if_false]
      by_cases h3 : arg0 = PATH
      · simp only [h3, if_true]
        have hk : r.ret.toNat - 1 = rest.length := by
          rw [hret]
          simp
        rw [hk, path_copy_spec r.args (arg0 :: rest) htake rest.length 1
          (by simp [Nat.add_comm])]
        exact ⟨_, rfl, rfl, by simp⟩
      · simp only [h3, if_false]
        exact ⟨_, rfl, rfl, by simp⟩

theorem head_of_take (args : Args) (a : CStr) (as : List CStr) (k : Nat)
    (h : args.take (k + 1) = (a :: as).map some ++ [none]) : args.head? = some (some a) := by
  cases args with
  | nil => simp at h
  | cons x xs =>
    simp only [List.take_succ_cons, List.map_cons, List.cons_append, List.cons.injEq] at h
    simp [h.1]

/-- The single-command path always returns a step; it leaves the loop exactly
when the command parsed to the one argument `exit`, and then nothing but the
prompt was printed. -/
theorem run_single_spec (os : OS) (mem : Uninit) (sh : Shell) (command : CStr) :
    ∃ (r : ParseResult) (st : Step),
      parse_command command (fresh MAX_ARGS mem.args) = .ok r ∧
      run_single os mem sh command = .ok st ∧
      (st.stop = true ↔ r.ret = 1 ∧ r.args.head? = some (some EXIT)) ∧
      (st.stop = true → st.events = [.prompt]) := by
  obtain ⟨r, e1, _, e3⟩ := parse_command_ok command (fresh MAX_ARGS mem.args)
    (length_fresh _ _)
  unfold run_single
  rw [e1]
  simp only
  rcases e3 with e3 | ⟨as, e4, _, e6⟩
  · refine ⟨r, ⟨[.prompt, .error], sh, false⟩, rfl, by simp only [e3, if_true], ?_, by simp⟩
    simp [e3]
  · cases as with
    | nil =>
      simp only [List.length_nil, Nat.cast_zero] at e4
      refine ⟨r, ⟨[.prompt], sh, false⟩, rfl, by simp [e4], ?_, by simp⟩
      simp [e4]
    | cons a rest =>
      have hr1 : ¬ r.ret = -1 := by
        rw [e4]
        omega
      have hr0 : ¬ r.ret = 0 := by
        rw [e4]
        simp only [List.length_cons]
        omega
      obtain ⟨st, d1, d2, d3, _⟩ := dispatch_spec os sh r a rest e4 e6
      refine ⟨r, st, rfl, ?_, ?_, d3⟩
      · simp only [hr1, hr0, if_false]
        rw [load_zero_of_take r.args a rest _ e6]
        exact d1
      · rw [d2, head_of_take r.args a rest _ e6]
        constructor
        · rintro ⟨h1, h2⟩
          exact ⟨h2, by rw [h1]⟩
        · rintro ⟨h1, h2⟩
          simp only [Option.some.injEq] at h2
          exact ⟨h2, h1⟩

/-- The name `exit` followed by an argument: an error is reported and the loop
goes on. -/
theorem run_single_exit_args (os : OS) (mem : Uninit) (sh : Shell) (command a : CStr)
    (rest : List CStr) (htok : tokens WS command = EXIT :: a :: rest) (ha : a ≠ MARKER) :
    run_single os mem sh command = .ok ⟨[.prompt, .error], sh, false⟩ := by
  have hno : ∀ x ∈ [EXIT, a], x ≠ MARKER := by
    intro x hx
    simp only [List.mem_cons, List.mem_singleton, List.not_mem_nil, or_false] at hx
    rcases hx with h | h
    · rw [h]
      decide
    · rw [h]
      exact ha
  obtain ⟨args1, h1, h2, h3⟩ := parse_tokens_args [EXIT, a] rest 0 (fresh MAX_ARGS mem.args)
    none hno (by simp [MAX_ARGS]) (length_fresh _ _)
  simp only [List.cons_append, List.nil_append, Nat.zero_add, List.length_cons,
    List.length_nil, List.take_zero, List.map_cons, List.map_nil] at h2 h3
  obtain ⟨r, p1, _, p3⟩ := parse_tokens_ok rest.length rest (Nat.le_refl _) 2 false args1 none
    [EXIT, a] h1 (by simp [MAX_ARGS]) (by simpa using h2) rfl
  unfold run_single
  rw [parse_command_eq_tokens, htok, h3, p1]
  simp only
  rcases p3 with p3 | ⟨as, e4, _, e6⟩
  · simp only [p3, if_true]
  · have hr1 : ¬ r.ret = -1 := by
      rw [e4]
      omega
    have hr0 : ¬ r.ret = 0 := by
      rw [e4]
      simp only [List.cons_append, List.length_cons]
      omega
    have hgt : 1 < r.ret := by
      rw [e4]
      simp only [List.cons_append, List.length_cons]
      omega
    obtain ⟨st, d1, _, _, d4⟩ := dispatch_spec os sh r EXIT (a :: as) e4 e6
    simp only [hr1, hr0, if_false]
    rw [load_zero_of_take r.args EXIT (a :: as) _ e6]
    simp only
    rw [d1, d4 rfl hgt]

/-- C7: for every input event whose line holds no NUL byte, one iteration of
the session loop completes, and it ends the session if and only if the event
is end-of-input, or the batch of the line has exactly one sub-command and that
sub-command parses without error to the single argument token `exit`; when the
session ends no error has been reported; and `exit` followed by an argument
reports an error and the loop continues. -/
theorem session_ends_iff (os : OS) (mem : Uninit) (sh : Shell) (inp : Input)
    (htext : text_input inp) :
    ∃ st : Step, main_iteration os mem sh inp = .ok st ∧
      (st.stop = true ↔
        inp = .eof ∨ ∃ (raw command : CStr) (r : ParseResult), inp = .line raw ∧
          splitParallel raw = [command] ∧
          parse_command command (fresh MAX_ARGS mem.args) = .ok r ∧
          r.ret = 1 ∧ r.args.head? = some (some EXIT)) ∧
      (st.stop = true → Event.error ∉ st.events) ∧
      (∀ (raw command a : CStr) (rest : List CStr), inp = .line raw →
        splitParallel raw = [command] → tokens WS command = EXIT :: a :: rest →
        a ≠ MARKER → st.stop = false ∧ Event.error ∈ st.events) := by
  cases inp with
  | eof =>
    refine ⟨⟨[.prompt], sh, true⟩, rfl, ?_, ?_, ?_⟩
    · simp
    · intro _
      simp
    · intro raw command a rest h
      simp at h
  | line raw =>
    have hnul : ∀ c ∈ raw, c ≠ '\x00' := htext
    cases hb : splitParallel raw with
    | nil =>
      refine ⟨_, main_iteration_empty os mem sh raw hnul hb, ?_, by simp, ?_⟩
      · constructor
        · intro h
          simp at h
        · rintro (h | ⟨raw1, command, r, h1, h2, _⟩)
          · simp at h
          · simp only [Input.line.injEq] at h1
            rw [← h1, hb] at h2
            simp at h2
      · intro raw1 command a rest h1 h2
        simp only [Input.line.injEq] at h1
        rw [← h1, hb] at h2
        simp at h2
    | cons c cs =>
      cases cs with
      | nil =>
        obtain ⟨r, st, p1, p2, p3, p4⟩ := run_single_spec os mem sh c
        refine ⟨st, by rw [main_iteration_single os mem sh raw c hnul hb, p2], ?_, ?_, ?_⟩
        · rw [p3]
          constructor
          · rintro ⟨h1, h2⟩
            exact Or.inr ⟨raw, c, r, rfl, hb, p1, h1, h2⟩
          · rintro (h | ⟨raw1, command, r1, h1, h2, h3, h4, h5⟩)
            · simp at h
            · simp only [Input.line.injEq] at h1
              rw [← h1, hb] at h2
              simp only [List.cons.injEq, and_true] at h2
              rw [← h2, p1] at h3
              simp only [Except.ok.injEq] at h3
              rw [h3]
              exact ⟨h4, h5⟩
        · intro h
          rw [p4 h]
          simp
        · intro raw1 command a rest h1 h2 h3 h4
          simp only [Input.line.injEq] at h1
          rw [← h1, hb] at h2
          simp only [List.cons.injEq, and_true] at h2
          rw [← h2] at h3
          have e := run_single_exit_args os mem sh c a rest h3 h4
          rw [p2] at e
          simp only [Except.ok.injEq] at e
          rw [e]
          simp
      | cons c2 cs2 =>
        obtain ⟨events, m1, _⟩ := main_iteration_batch os mem sh raw hnul
          (by rw [hb]; simp)
        refine ⟨_, m1, ?_, by simp, ?_⟩
        · constructor
          · intro h
            simp at h
          · rintro (h | ⟨raw1, command, r, h1, h2, _⟩)
            · simp at h
            · simp only [Input.line.injEq] at h1
              rw [← h1, hb] at h2
              simp at h2
        · intro raw1 command a rest h1 h2
          simp only [Input.line.injEq] at h1
          rw [← h1, hb] at h2
          simp at h2

theorem session_ends_iff_witness :
    ∃ st : Step,
      main_iteration bare_os blank_mem (initialize_path [])
          (.line ['e', 'x', 'i', 't', '\n']) = .ok st ∧
      (st.stop = true ↔
        Input.line ['e', 'x', 'i', 't', '\n'] = .eof ∨
          ∃ (raw command : CStr) (r : ParseResult),
            Input.line ['e', 'x', 'i', 't', '\n'] = .line raw ∧
            splitParallel raw = [command] ∧
            parse_command command (fresh MAX_ARGS blank_mem.args) = .ok r ∧
            r.ret = 1 ∧ r.args.head? = some (some EXIT)) ∧
      (st.stop = true → Event.error ∉ st.events) ∧
      (∀ (raw command a : CStr) (rest : List CStr),
        Input.line ['e', 'x', 'i', 't', '\n'] = .line raw →
        splitParallel raw = [command] → tokens WS command = EXIT :: a :: rest →
        a ≠ MARKER → st.stop = false ∧ Event.error ∈ st.events) :=
  session_ends_iff bare_os blank_mem (initialize_path [])
    (.line ['e', 'x', 'i', 't', '\n'])
    (show ∀ c ∈ ['e', 'x', 'i', 't', '\n'], c ≠ '\x00' by decide)

/-- C9: for every line without a NUL byte whose batch has two or more
sub-commands the iteration completes, leaves the search path and the working
directory of the shell unchanged and does not end the session, whatever the
sub-commands are; apart from the prompt, every event is a process creation for
a child that resolves an external command, an error report or a join, so no
built-in runs. -/
theorem batch_no_builtin (os : OS) (mem : Uninit) (sh : Shell) (raw : List Char)
    (hnul : ∀ c ∈ raw, c ≠ '\x00') (h : 2 ≤ (splitParallel raw).length) :
    ∃ st : Step, main_iteration os mem sh (.line raw) = .ok st ∧
      st.shell.path = sh.path ∧ st.shell.cwd = sh.cwd ∧ st.stop = false ∧
      ∀ e ∈ st.events, e = .prompt ∨ is_batch_event e = true := by
  obtain ⟨events, m1, m2⟩ := main_iteration_batch os mem sh raw hnul h
  refine ⟨_, m1, rfl, rfl, rfl, ?_⟩
  intro e he
  rcases List.mem_cons.mp he with h1 | h1
  · exact Or.inl h1
  · exact Or.inr (m2 e h1)

theorem batch_no_builtin_witness :
    ∃ st : Step,
      main_iteration bare_os blank_mem (initialize_path [])
          (.line ['e', 'x', 'i', 't', ' ', '&', ' ', 'c', 'd', ' ', 'x', ' ', '&', 'p', 'a',
            't', 'h', '\n']) = .ok st ∧
      st.shell.path = (initialize_path []).path ∧ st.shell.cwd = (initialize_path []).cwd ∧
      st.stop = false ∧ ∀ e ∈ st.events, e = .prompt ∨ is_batch_event e = true :=
  batch_no_builtin bare_os blank_mem (initialize_path [])
    ['e', 'x', 'i', 't', ' ', '&', ' ', 'c', 'd', ' ', 'x', ' ', '&', 'p', 'a', 't', 'h', '\n']
    (by decide) (by decide)

/-- C10, the code at a failing input: for the batch `ls`, `> f` (the line
`ls & > f`) with process creation succeeding, one child is created, for `ls`,
and two joins follow: one for that child and one for whatever the slot of the
skipped member in the array `pids` holds, which was never written. -/
theorem execute_parallel_commands_joins_unset (g : Int) (sh : Shell) :
    execute_parallel_commands bare_os ⟨fun _ => none, fun _ => [], fun _ => g⟩
        (['l', 's'] :: ['>', ' ', 'f'] :: List.replicate 62 []) 2
      = .ok ([.fork (.command ['l', 's'] [['l', 's']] none) (.created 100),
          .waitpid 100, .waitpid g], 0) ∧
    main_iteration bare_os ⟨fun _ => none, fun _ => [], fun _ => g⟩ sh
        (.line ['l', 's', ' ', '&', ' ', '>', ' ', 'f', '\n'])
      = .ok ⟨[.prompt, .fork (.command ['l', 's'] [['l', 's']] none) (.created 100),
          .waitpid 100, .waitpid g], sh, false⟩ := by
  constructor
  · rfl
  · rfl

/-! ## Claims about the batch executor -/

/-- C11, the code at a failing input: for the batch `ls`, `pwd` (the line
`ls & pwd`) with process creation succeeding for `ls` and failing for `pwd`,
`execute_parallel_commands` creates the child for `ls`, reports the error and
returns -1; its trace holds no join, so the child with pid 100 is not waited
for. -/
theorem execute_parallel_commands_fork_failure (mem : Uninit) (sh : Shell) :
    execute_parallel_commands second_fork_fails mem
        (['l', 's'] :: ['p', 'w', 'd'] :: List.replicate 62 []) 2
      = .ok ([.fork (.command ['l', 's'] [['l', 's']] none) (.created 100),
          .fork (.command ['p', 'w', 'd'] [['p', 'w', 'd']] none) .failed, .error], -1) ∧
    main_iteration second_fork_fails mem sh
        (.line ['l', 's', ' ', '&', ' ', 'p', 'w', 'd', '\n'])
      = .ok ⟨[.prompt, .fork (.command ['l', 's'] [['l', 's']] none) (.created 100),
          .fork (.command ['p', 'w', 'd'] [['p', 'w', 'd']] none) .failed, .error],
          sh, false⟩ := by
  constructor
  · rfl
  · rfl

/-- C12, the code at a failing input: for the batch `ls`, `pwd >`, `date` (the
line `ls & pwd > & date`) with process creation succeeding,
`execute_parallel_commands` creates the child for `ls`, reports the error for
`pwd >` and returns -1: `date` is never launched and the child of `ls` is not
joined. -/
theorem execute_parallel_commands_malformed_member (mem : Uninit) (sh : Shell) :
    execute_parallel_commands bare_os mem
        (['l', 's'] :: ['p', 'w', 'd', ' ', '>'] :: ['d', 'a', 't', 'e'] ::
          List.replicate 61 []) 3
      = .ok ([.fork (.command ['l', 's'] [['l', 's']] none) (.created 100), .error], -1) ∧
    main_iteration bare_os mem sh
        (.line ['l', 's', ' ', '&', ' ', 'p', 'w', 'd', ' ', '>', ' ', '&', ' ', 'd', 'a', 't',
          'e', '\n'])
      = .ok ⟨[.prompt, .fork (.command ['l', 's'] [['l', 's']] none) (.created 100), .error],
          sh, false⟩ := by
  constructor
  · rfl
  · rfl

/-- C13, the code at two failing inputs.  On `cmd > out extra`, `parse_command`
returns -1, and the tokenizer of `execute_parallel_commands` reports no error:
it yields the arguments `cmd`, `extra` and the target `out`.  On `> out`,
`parse_command` returns -1, and the tokenizer of `execute_parallel_commands`
reports no error: it yields no argument and the target `out`. -/
theorem batch_tokenize_accepts_malformed :
    ((parse_command ['c', 'm', 'd', ' ', '>', ' ', 'o', 'u', 't', ' ', 'e', 'x', 't', 'r', 'a']
        (List.replicate 64 none)).map (fun r => r.ret) = .ok (-1) ∧
      (batch_tokenize ['c', 'm', 'd', ' ', '>', ' ', 'o', 'u', 't', ' ', 'e', 'x', 't', 'r', 'a']
        (List.replicate 64 none)).map (Option.map (fun r => (r.ret, argv r.args, r.output_file)))
        = .ok (some (2, [['c', 'm', 'd'], ['e', 'x', 't', 'r', 'a']], some ['o', 'u', 't']))) ∧
    ((parse_command ['>', ' ', 'o', 'u', 't'] (List.replicate 64 none)).map (fun r => r.ret)
        = .ok (-1) ∧
      (batch_tokenize ['>', ' ', 'o', 'u', 't'] (List.replicate 64 none)).map
        (Option.map (fun r => (r.ret, argv r.args, r.output_file)))
        = .ok (some (0, [], some ['o', 'u', 't']))) := by
  refine ⟨⟨by decide, by decide⟩, ⟨by decide, by decide⟩⟩

/-! ## More than one marker -/

/-- With at most 62 tokens before the first marker, the token loop returns -1
unless exactly one token follows that marker. -/
theorem parse_tokens_marker_post (pre post : List CStr) (args : Args)
    (hargs : args.length = MAX_ARGS) (hpre : ∀ a ∈ pre, a ≠ MARKER) (hlen : pre.length ≤ 62)
    (hpost : post.length ≠ 1) :
    ∃ args1 output_file,
      parse_tokens (pre ++ MARKER :: post) 0 false args none = .ok ⟨-1, args1, output_file⟩ := by
  have hn : 0 + pre.length ≤ MAX_ARGS - 1 := by
    simp only [MAX_ARGS]
    omega
  obtain ⟨args1, _, _, h3⟩ := parse_tokens_args pre (MARKER :: post) 0 args none hpre hn hargs
  rw [h3, Nat.zero_add, parse_tokens_cons]
  have hlt : pre.length < MAX_ARGS - 1 := by
    simp only [MAX_ARGS]
    omega
  simp only [hlt, if_true, Bool.false_or]
  by_cases h0 : (pre.length == 0) = true
  · exact ⟨args1, none, by simp only [h0, if_true]⟩
  · simp only [h0, if_false]
    match post, hpost with
    | [], _ => exact ⟨args1, none, rfl⟩
    | [_], hp => exact absurd rfl hp
    | file :: tok :: rest, _ =>
      refine ⟨args1, some file, ?_⟩
      simp only
      rw [parse_tokens_cons]
      by_cases hm : tok = MARKER
      · simp [hlt, hm]
      · simp [hlt, hm]

/-- C14, as stated, fails, in two ways.  In `cmd > >` the marker occurs twice
and `parse_command` returns 1 with the output target `>`; in the string of 63
tokens `a` followed by `> x >` the marker occurs twice and `parse_command`
returns 63. -/
theorem parse_command_two_markers_counterexample :
    ((tokens WS ['c', 'm', 'd', ' ', '>', ' ', '>']).count MARKER = 2 ∧
      (parse_command ['c', 'm', 'd', ' ', '>', ' ', '>'] (List.replicate 64 none)).map
        (fun r => (r.ret, r.output_file)) = .ok (1, some MARKER)) ∧
    ((tokens WS ((List.replicate 63 ['a', ' ']).flatten ++ ['>', ' ', 'x', ' ', '>'])).count
        MARKER = 2 ∧
      (parse_command ((List.replicate 63 ['a', ' ']).flatten ++ ['>', ' ', 'x', ' ', '>'])
        (List.replicate 64 none)).map (fun r => r.ret) = .ok 63) := by
  refine ⟨⟨by decide, by decide⟩, ⟨by decide, by decide⟩⟩

/-- C14, amended: when at most 62 tokens precede the first marker `>` of the
sub-command string and the marker occurs again among the tokens after it,
`parse_command` returns -1, unless that second marker is the only token after
the first one (it is then the file name); equivalently, when `parse_command`
succeeds on a string with at most 62 tokens before its first marker, no marker
follows the first one, or exactly one token follows it and is a marker. -/
theorem parse_command_second_marker (input : CStr) (pre post : List CStr) (args : Args)
    (hargs : args.length = MAX_ARGS) (hpre : ∀ a ∈ pre, a ≠ MARKER)
    (hform : tokens WS input = pre ++ MARKER :: post) (hlen : pre.length ≤ 62) :
    (MARKER ∈ post → post ≠ [MARKER] →
      ∃ args1 output_file, parse_command input args = .ok ⟨-1, args1, output_file⟩) ∧
    (∀ r : ParseResult, parse_command input args = .ok r → r.ret ≠ -1 →
      MARKER ∉ post ∨ post = [MARKER]) := by
  have key : MARKER ∈ post → post ≠ [MARKER] →
      ∃ args1 output_file, parse_command input args = .ok ⟨-1, args1, output_file⟩ := by
    intro hmem hne
    rw [parse_command_eq_tokens, hform]
    apply parse_tokens_marker_post pre post args hargs hpre hlen
    intro h1
    obtain ⟨x, hx⟩ := List.length_eq_one.mp h1
    rw [hx] at hmem hne
    simp only [List.mem_singleton] at hmem
    rw [← hmem] at hne
    exact hne rfl
  refine ⟨key, ?_⟩
  intro r hr hret
  by_cases hmem : MARKER ∈ post
  · by_cases hne : post = [MARKER]
    · exact Or.inr hne
    · obtain ⟨args1, out, h⟩ := key hmem hne
      rw [h] at hr
      simp only [Except.ok.injEq] at hr
      rw [← hr] at hret
      exact absurd rfl hret
  · exact Or.inl hmem

theorem parse_command_second_marker_witness :
    ∃ args1 output_file,
      parse_command ['c', ' ', '>', ' ', 'o', ' ', '>', ' ', 'p'] (List.replicate 64 none)
        = .ok ⟨-1, args1, output_file⟩ :=
  (parse_command_second_marker ['c', ' ', '>', ' ', 'o', ' ', '>', ' ', 'p'] [['c']]
    [['o'], ['>'], ['p']] (List.replicate 64 none) (by decide) (by decide) (by decide)
    (by decide)).1 (by decide) (by decide)

/-! ## Blank lines and lines of separators -/

theorem mem_of_mem_splitOnP (p : Char → Bool) (l : CStr) :
    ∀ piece ∈ l.splitOnP p, ∀ c ∈ piece, c ∈ l ∧ p c = false := by
  induction l with
  | nil =>
    intro piece hp c hc
    simp only [List.splitOnP_nil, List.mem_singleton] at hp
    rw [hp] at hc
    simp at hc
  | cons x xs ih =>
    intro piece hp c hc
    rw [List.splitOnP_cons] at hp
    by_cases hx : p x = true
    · simp only [hx, if_true, List.mem_cons] at hp
      rcases hp with h | h
      · rw [h] at hc
        simp at hc
      · obtain ⟨h1, h2⟩ := ih piece h c hc
        exact ⟨List.mem_cons_of_mem _ h1, h2⟩
    · simp only [hx, if_false, Bool.false_eq_true] at hp
      cases hs : List.splitOnP p xs with
      | nil => exact absurd hs (List.splitOnP_ne_nil p xs)
      | cons y ys =>
        rw [hs] at hp ih
        simp only [List.modifyHead_cons, List.mem_cons] at hp
        rcases hp with h | h
        · rw [h] at hc
          rcases List.mem_cons.mp hc with h1 | h1
          · rw [h1]
            exact ⟨List.mem_cons_self _ _, by simpa using hx⟩
          · obtain ⟨h2, h3⟩ := ih y (List.mem_cons_self _ _) c h1
            exact ⟨List.mem_cons_of_mem _ h2, h3⟩
        · obtain ⟨h2, h3⟩ := ih piece (List.mem_cons_of_mem _ h) c hc
          exact ⟨List.mem_cons_of_mem _ h2, h3⟩

/-- A line of whitespace and separators has an empty batch. -/
theorem splitParallel_of_blank (raw : CStr)
    (h : ∀ c ∈ raw, isspace c = true ∨ c = '&') : splitParallel raw = [] := by
  unfold splitParallel
  rw [List.filter_eq_nil_iff]
  intro piece hp
  rw [List.mem_map] at hp
  obtain ⟨q, hq, hqp⟩ := hp
  have hall : ∀ c ∈ q, isspace c = true := by
    intro c hc
    obtain ⟨h1, h2⟩ := mem_of_mem_splitOnP (fun x => x == '&') raw q hq c hc
    rcases h c h1 with h3 | h3
    · exact h3
    · rw [h3] at h2
      simp at h2
  have := (strip_eq_nil_iff q).mpr hall
  rw [hqp] at this
  simp [this]

/-- A line of whitespace and separators holds no NUL byte. -/
theorem text_of_blank (raw : List Char) (h : ∀ c ∈ raw, isspace c = true ∨ c = '&') :
    ∀ c ∈ raw, c ≠ '\x00' := by
  intro c hc h0
  rw [h0] at hc
  rcases h _ hc with h1 | h1
  · exact absurd h1 (by decide)
  · exact absurd h1 (by decide)

/-- C15: for every line that is empty, consists only of whitespace, or
consists only of whitespace and parallel separators `&`, with or without the
newline at its end, the batch is empty and one iteration of the session loop
prints the prompt and nothing else: no process is created, no error is
reported, the shell state with its search path is unchanged, and the loop
continues. -/
theorem blank_line_no_action (os : OS) (mem : Uninit) (sh : Shell) (raw : CStr)
    (h : ∀ c ∈ raw, isspace c = true ∨ c = '&') :
    splitParallel raw = [] ∧
      main_iteration os mem sh (.line raw) = .ok ⟨[.prompt], sh, false⟩ :=
  ⟨splitParallel_of_blank raw h,
    main_iteration_empty os mem sh raw (text_of_blank raw h) (splitParallel_of_blank raw h)⟩

theorem blank_line_no_action_witness :
    splitParallel [' ', '&', '\t', '&', '&', ' ', '\n'] = [] ∧
      main_iteration bare_os blank_mem (initialize_path [])
          (.line [' ', '&', '\t', '&', '&', ' ', '\n'])
        = .ok ⟨[.prompt], initialize_path [], false⟩ :=
  blank_line_no_action bare_os blank_mem (initialize_path [])
    [' ', '&', '\t', '&', '&', ' ', '\n'] (by decide)

/-! ## Bounds of the array writes -/

/-- C16: for every input string, `parse_command` and the tokenizer of
`execute_parallel_commands`, run on an argument array of 64 entries, return
without a write outside the array; when they do not leave through the error
return they hold at most 63 arguments, stored in order from index 0, with the
NULL terminator at the index that follows, at most 63.  Likewise the split
loop of `main`, run on a batch array of 64 entries, returns without a write
outside the array and with a count of at most 64. -/
theorem array_writes_in_bounds (input : CStr) (args : Args) (parallel_commands : List CStr)
    (hargs : args.length = MAX_ARGS) (hpc : parallel_commands.length = MAX_ARGS) :
    (∃ r : ParseResult, parse_command input args = .ok r ∧ r.args.length = MAX_ARGS ∧
      (r.ret = -1 ∨ ∃ as : List CStr, r.ret = (as.length : Int) ∧ as.length ≤ 63 ∧
        r.args.take (as.length + 1) = as.map some ++ [none])) ∧
    (batch_tokenize input args = .ok none ∨
      ∃ (r : ParseResult) (as : List CStr),
        batch_tokenize input args = .ok (some r) ∧ r.args.length = MAX_ARGS ∧
        r.ret = (as.length : Int) ∧ as.length ≤ 63 ∧
        r.args.take (as.length + 1) = as.map some ++ [none]) ∧
    (∃ (parallel_commands1 : List CStr) (parallel_count : Nat),
      split_parallel input parallel_commands = .ok (parallel_commands1, parallel_count) ∧
      parallel_commands1.length = MAX_ARGS ∧ parallel_count ≤ 64) := by
  refine ⟨parse_command_ok input args hargs, batch_tokenize_ok input args hargs, ?_⟩
  obtain ⟨pc1, e1, e2, _⟩ := split_tokens_spec (tokens AMP input) parallel_commands 0 hpc
    (Nat.zero_le _)
  refine ⟨pc1, _, by rw [split_parallel_eq_tokens, e2], e1, ?_⟩
  rw [Nat.zero_add, List.length_take]
  simp only [MAX_ARGS]
  omega

theorem array_writes_in_bounds_witness :
    ∃ r : ParseResult,
      parse_command (List.replicate 70 ['a', ' ']).flatten (List.replicate 64 none) = .ok r ∧
      r.args.length = MAX_ARGS ∧
      (r.ret = -1 ∨ ∃ as : List CStr, r.ret = (as.length : Int) ∧ as.length ≤ 63 ∧
        r.args.take (as.length + 1) = as.map some ++ [none]) :=
  (array_writes_in_bounds (List.replicate 70 ['a', ' ']).flatten (List.replicate 64 none)
    (List.replicate 64 []) (by decide) (by decide)).1

/-! ## The circular buffer of `Multithreaded.c` -/

theorem tmod_succ (n : Nat) :
    ((n : Int) + 1).tmod (CIRCULAR_BUFFER_SIZE : Int) = (((n + 1) % 15 : Nat) : Int) := by
  have e : (n : Int) + 1 = ((n + 1 : Nat) : Int) := by push_cast; rfl
  rw [e]
  rfl

theorem store_int_ok {α : Type} (a : List α) (n : Nat) (v : α) (h : n < a.length) :
    store_int a (n : Int) v = .ok (a.set n v) := by
  unfold store_int
  have h0 : ¬ ((n : Int) < 0) := by omega
  simp only [h0, if_false, Int.toNat_ofNat]
  exact store_ok a n v h

theorem load_int_ok {α : Type} (a : List α) (n : Nat) (h : n < a.length) :
    load_int a (n : Int) = .ok (a[n]) := by
  unfold load_int
  have h0 : ¬ ((n : Int) < 0) := by omega
  simp only [h0, if_false, Int.toNat_ofNat]
  exact load_ok a n h

/-- The producer's critical section, entered with the buffer not full, returns
and keeps the invariant. -/
theorem producer_section_invariant (input : CStr) (s : Shared)
    (hinv : buffer_invariant input s) (hi : s.i < input.length)
    (hfull : s.buffer_counter ≠ (CIRCULAR_BUFFER_SIZE : Int)) :
    ∃ s1, producer_section input s = .ok s1 ∧ buffer_invariant input s1 := by
  obtain ⟨c, o, hc, ho, hin, hc15, ho15, hlen, _, hprod, hcl, hwin, hpre⟩ := hinv
  have hc14 : c < 15 := by
    rcases Nat.lt_or_ge c 15 with h | h
    · exact h
    · exfalso
      apply hfull
      rw [hc]
      have : c = 15 := by omega
      rw [this]
      rfl
  have hidx : (o + c) % 15 < s.buffer.length := by
    rw [hlen]
    omega
  unfold producer_section
  rw [load_ok input s.i hi]
  simp only
  rw [hin, store_int_ok s.buffer ((o + c) % 15) input[s.i] hidx]
  refine ⟨_, rfl, c + 1, o, ?_, ho, ?_, by omega, ho15, ?_, hi, ?_, ?_, ?_, ?_⟩
  · simp only [hc]
    push_cast
    rfl
  · simp only
    rw [tmod_succ]
    congr 1
    omega
  · simp only [List.length_set]
    exact hlen
  · simp only
    rw [hprod, List.take_succ, List.getElem?_eq_getElem hi]
    rfl
  · simp only [List.length_append, List.length_singleton]
    omega
  · intro k hk
    simp only
    by_cases hkc : k < c
    · have hne : (o + c) % 15 ≠ (o + k) % 15 := by omega
      rw [List.getElem?_set_ne hne, hwin k hkc]
      rw [List.getElem?_append_left (by omega)]
    · have hkeq : k = c := by omega
      rw [hkeq, List.getElem?_set_self hidx, hcl]
      simp
  · simp only
    obtain ⟨t, ht⟩ := hpre
    exact ⟨t ++ [input[s.i]], by rw [← List.append_assoc, ht]⟩

/-- The consumer's critical section, entered with the buffer not empty,
returns and keeps the invariant. -/
theorem consumer_section_invariant (input : CStr) (s : Shared)
    (hinv : buffer_invariant input s) (hempty : s.buffer_counter ≠ 0) :
    ∃ s1, consumer_section s = .ok s1 ∧ buffer_invariant input s1 := by
  obtain ⟨c, o, hc, ho, hin, hc15, ho15, hlen, hi, hprod, hcl, hwin, hpre⟩ := hinv
  have hc1 : 0 < c := by
    rcases Nat.eq_zero_or_pos c with h | h
    · exfalso
      apply hempty
      rw [hc, h]
      rfl
    · exact h
  have hidx : o < s.buffer.length := by
    rw [hlen]
    exact ho15
  have hlt : s.consumed.length < s.produced.length := by omega
  have hfirst : s.buffer[o] = s.produced[s.consumed.length] := by
    have h0 := hwin 0 hc1
    have e : (o + 0) % 15 = o := by omega
    rw [e, Nat.add_zero, List.getElem?_eq_getElem hidx, List.getElem?_eq_getElem hlt] at h0
    exact Option.some.inj h0
  unfold consumer_section
  rw [ho, load_int_ok s.buffer o hidx]
  refine ⟨_, rfl, c - 1, (o + 1) % 15, ?_, ?_, ?_, by omega, by omega, hlen, hi, hprod, ?_, ?_, ?_⟩
  · simp only [hc]
    omega
  · simp only
    exact tmod_succ o
  · simp only
    rw [hin]
    congr 1
    omega
  · simp only [List.length_append, List.length_singleton]
    omega
  · intro k hk
    simp only [List.length_append, List.length_singleton]
    have e1 : ((o + 1) % 15 + k) % 15 = (o + (k + 1)) % 15 := by omega
    have e2 : s.consumed.length + 1 + k = s.consumed.length + (k + 1) := by omega
    rw [e1, e2]
    exact hwin (k + 1) (by omega)
  · simp only
    rw [hfirst]
    have htake : s.consumed = s.produced.take s.consumed.length :=
      List.prefix_iff_eq_take.mp hpre
    have e : s.consumed ++ [s.produced[s.consumed.length]]
        = s.produced.take (s.consumed.length + 1) := by
      rw [List.take_succ, List.getElem?_eq_getElem hlt, ← htake]
      rfl
    rw [e]
    exact ⟨s.produced.drop (s.consumed.length + 1), List.take_append_drop _ _⟩

theorem reset_invariant (input : CStr) (buffer : List Char)
    (hlen : buffer.length = CIRCULAR_BUFFER_SIZE) : buffer_invariant input (reset buffer) := by
  refine ⟨0, 0, rfl, rfl, rfl, by omega, by omega, hlen, Nat.zero_le _, ?_, rfl, ?_, ?_⟩
  · simp [reset]
  · intro k hk
    omega
  · exact ⟨[], rfl⟩

/-- Every reachable state satisfies the invariant. -/
theorem reachable_invariant (input : CStr) (buffer : List Char)
    (hlen : buffer.length = CIRCULAR_BUFFER_SIZE) (s : Shared)
    (h : Reachable input buffer s) : buffer_invariant input s := by
  induction h with
  | start => exact reset_invariant input buffer hlen
  | producer s s1 _ hi hfull hstep ih =>
    obtain ⟨s2, h1, h2⟩ := producer_section_invariant input s ih hi hfull
    rw [hstep] at h1
    simp only [Except.ok.injEq] at h1
    rw [h1]
    exact h2
  | consumer s s1 _ hempty hstep ih =>
    obtain ⟨s2, h1, h2⟩ := consumer_section_invariant input s ih hempty
    rw [hstep] at h1
    simp only [Except.ok.injEq] at h1
    rw [h1]
    exact h2

/-- C17: from the reset state, under any interleaving of critical sections of
the producer (entered only when `buffer_counter` is not 15) and of the consumer
(entered only when `buffer_counter` is not 0), every reachable state has
`0 <= buffer_counter <= 15` and `buffer_in = (buffer_out + buffer_counter) mod
15`; the characters consumed so far are a prefix of the characters produced so
far, which are a prefix of the input; the characters produced and not yet
consumed are, in order, the `buffer_counter` entries of the buffer from
`buffer_out` on; and a critical section that may be entered returns, with every
buffer access in bounds. -/
theorem circular_buffer_invariant (input : CStr) (buffer : List Char)
    (hlen : buffer.length = CIRCULAR_BUFFER_SIZE) (s : Shared)
    (h : Reachable input buffer s) :
    0 ≤ s.buffer_counter ∧ s.buffer_counter ≤ 15 ∧
    s.buffer_in = (s.buffer_out + s.buffer_counter) % 15 ∧
    s.consumed <+: s.produced ∧ s.produced <+: input ∧
    (s.consumed.length : Int) + s.buffer_counter = s.produced.length ∧
    (∀ k : Nat, (k : Int) < s.buffer_counter →
      s.buffer[((s.buffer_out + k) % 15).toNat]? = s.produced[s.consumed.length + k]?) ∧
    (s.i < input.length → s.buffer_counter ≠ 15 →
      ∃ s1, producer_section input s = .ok s1) ∧
    (s.buffer_counter ≠ 0 → ∃ s1, consumer_section s = .ok s1) := by
  have hinv := reachable_invariant input buffer hlen s h
  have hinv1 := hinv
  obtain ⟨c, o, hc, ho, hin, hc15, ho15, _, _, hprod, hcl, hwin, hpre⟩ := hinv1
  refine ⟨by omega, by omega, ?_, hpre, ?_, ?_, ?_, ?_, ?_⟩
  · rw [hin, ho, hc]
    omega
  · rw [hprod]
    exact ⟨input.drop s.i, List.take_append_drop _ _⟩
  · rw [hc]
    omega
  · intro k hk
    have hk1 : k < c := by omega
    have e : (s.buffer_out + (k : Int)) % 15 = (((o + k) % 15 : Nat) : Int) := by
      rw [ho]
      omega
    rw [e, Int.toNat_ofNat]
    exact hwin k hk1
  · intro hi hfull
    obtain ⟨s1, h1, _⟩ := producer_section_invariant input s hinv hi hfull
    exact ⟨s1, h1⟩
  · intro hempty
    obtain ⟨s1, h1, _⟩ := consumer_section_invariant input s hinv hempty
    exact ⟨s1, h1⟩

theorem circular_buffer_invariant_witness :
    (⟨'a' :: List.replicate 14 'z', 0, 1, 1, 1, ['a'], ['a']⟩ : Shared).buffer_in
        = ((1 : Int) + 0) % 15 ∧
      (['a'] : List Char) <+: ['a'] :=
  have h := circular_buffer_invariant ['a', 'b'] (List.replicate 15 'z') (by decide)
    ⟨'a' :: List.replicate 14 'z', 0, 1, 1, 1, ['a'], ['a']⟩
    (Reachable.consumer ⟨'a' :: List.replicate 14 'z', 1, 1, 0, 1, ['a'], []⟩ _
      (Reachable.producer (reset (List.replicate 15 'z')) _ Reachable.start
        (by decide) (by decide) (by rfl))
      (by decide) (by rfl))
  ⟨h.2.2.1, h.2.2.2.1⟩

end Rush
